import Mathlib

/-!
# Verification of the GitHub-backed skill synchronization subsystem

A shallow embedding, in Lean 4, of the skill-management layer of the
OpenBrowserClaw repository (the module defining `parseGitHubSkillUrl`,
`fetchGitHubSkillBundle`, `diffGitHubSkillMetadata`,
`installSelectedGitHubSkills`, `detectLocalGitHubSkillChanges`,
`computeGitBlobSha`, and friends), together with theorems settling the
specification claims about that code.

Modelling conventions:
* Strings are Lean `String`s; all character-level work is done on
  `String.data` (`List Char`) so that every definition reduces in the kernel.
  JavaScript `localeCompare`-based sorting is modelled as code-point
  lexicographic sorting (`charListLe`), and JavaScript `String.prototype.trim`
  as trimming the ASCII whitespace characters recognised by `Char.isWhitespace`.
* Byte sequences (`Uint8Array`) are `List Nat` with entries below 256; the
  platform UTF-8 codecs (`TextEncoder`/`TextDecoder`, base64 transport
  decoding) are modelled by `String.toUTF8` where the bytes of a text file are
  needed.
* The remote GitHub HTTP surface is an explicit oracle (`RemoteEnv`) giving,
  for each directory path, the listing the API would return, and for each file
  API url, the decoded content (or the error the request would produce).
  Recursive directory walks take a fuel bound, standing for the finiteness of
  the real remote tree.
* The local OPFS store is a state value (`LocalStore`): a list of skill
  directories, each a flat map from slash-joined relative path to file
  content.  The sidecar metadata file is stored structurally
  (`FileContent.metaF`), standing for its JSON serialization.
-/

set_option maxRecDepth 4000

deriving instance DecidableEq for Except

namespace OBC

/-! ## Character and string helpers -/

/-- Lowercase ASCII letter or digit, the character class of the skill-name
regular expression. -/
def isLowerAlnum (c : Char) : Bool :=
  (97 ≤ c.toNat && c.toNat ≤ 122) || (48 ≤ c.toNat && c.toNat ≤ 57)

/-- Code-point lexicographic comparison on character lists (the model of
string comparison used by the sorts below). -/
def charListLe : List Char → List Char → Bool
  | [], _ => true
  | _ :: _, [] => false
  | a :: as, b :: bs =>
    if a.toNat < b.toNat then true
    else if b.toNat < a.toNat then false
    else charListLe as bs

/-- String comparison through `charListLe`. -/
def strLeB (a b : String) : Bool := charListLe a.data b.data

/-- Concatenation of strings through their character lists (kernel-reducible
replacement for `String.append` in the embedded code). -/
def cat (a b : String) : String := ⟨a.data ++ b.data⟩

/-- `a` is a prefix of `b`, on character lists (models
`String.prototype.startsWith`). -/
def strStartsWith (b a : String) : Bool := a.data.isPrefixOf b.data

/-- Split a character list on a separator character; always returns at least
one (possibly empty) group, like JavaScript `String.prototype.split`. -/
def splitOnChar (c : Char) : List Char → List (List Char)
  | [] => [[]]
  | x :: xs =>
    let rest := splitOnChar c xs
    if x = c then [] :: rest
    else
      match rest with
      | g :: gs => (x :: g) :: gs
      | [] => [[x]]

/-- The JavaScript idiom `s.split('/').filter(Boolean)`: slash-separated
segments with empty segments dropped. -/
def pathSegments (s : String) : List String :=
  ((splitOnChar '/' s.data).map (fun cs => (⟨cs⟩ : String))).filter (fun t => t ≠ "")

/-- Join segments with `'/'` (the model of `parts.join('/')`). -/
def joinSegments : List String → String
  | [] => ""
  | [s] => s
  | s :: rest => cat s (cat "/" (joinSegments rest))

/-- Whitespace trimming on both ends of a character list (models
`String.prototype.trim`). -/
def trimChars (cs : List Char) : List Char :=
  ((cs.dropWhile Char.isWhitespace).reverse.dropWhile Char.isWhitespace).reverse

/-- `String.prototype.trim`, kernel-reducible. -/
def jsTrim (s : String) : String := ⟨trimChars s.data⟩

/-! ## Skill-name shape

The regular expression `SKILL_NAME_RE = /^[a-z0-9]+(?:-[a-z0-9]+)*$/`,
embedded as a two-state automaton over the character list. -/

/-- Matcher for `[a-z0-9]+(?:-[a-z0-9]+)*` (whole-list match).
`needGroup = true` means a fresh `[a-z0-9]+` group must start here;
`needGroup = false` means at least one alphanumeric character of the current
group has been consumed. -/
def nameShapeAux : Bool → List Char → Bool
  | true, [] => false
  | true, c :: rest => isLowerAlnum c && nameShapeAux false rest
  | false, [] => true
  | false, c :: rest =>
    if isLowerAlnum c then nameShapeAux false rest
    else if c = '-' then nameShapeAux true rest
    else false

/-- Whole-string test of `SKILL_NAME_RE`. -/
def skillNameShape (s : String) : Bool := nameShapeAux true s.data

/-- `validateSkillName` from the source: `null` (here `none`) means the name
is acceptable, otherwise the user-facing error message is returned (the
source binds `trimmed = name.trim()` once; it is inlined here). -/
def validateSkillName (name : String) : Option String :=
  if jsTrim name = "" then some "Name is required"
  else if 64 < (jsTrim name).data.length then some "Name must be 64 characters or fewer"
  else if !skillNameShape (jsTrim name) then
    some "Use lowercase letters, numbers, and single hyphens only"
  else none

/-! ## Path normalization (`toRelativeSkillPath`) -/

/-- The normalization inside `toRelativeSkillPath`: replace every backslash by
a slash (`replace(/\\/g, '/')`) and strip all leading and trailing slashes
(`replace(/^\/+|\/+$/g, '')`). -/
def normalizeSkillPath (s : String) : String :=
  let cs := s.data.map (fun c => if c = '\\' then '/' else c)
  ⟨((cs.dropWhile (· = '/')).reverse.dropWhile (· = '/')).reverse⟩

/-- `toRelativeSkillPath` from the source: strip the (normalized) root
directory prefix from a (normalized) full path, failing when the full path is
the root itself or does not lie under the root.  (The source binds
`normalizedRoot`, `normalizedFullPath` and `prefix` once each; they are
inlined here.) -/
def toRelativeSkillPath (rootPath fullPath : String) : Except String String :=
  if normalizeSkillPath rootPath = "" then .ok (normalizeSkillPath fullPath)
  else if normalizeSkillPath fullPath = normalizeSkillPath rootPath then
    .error "Invalid skill file path"
  else if (cat (normalizeSkillPath rootPath) "/").data.isPrefixOf
      (normalizeSkillPath fullPath).data then
    .ok ⟨(normalizeSkillPath fullPath).data.drop
      (cat (normalizeSkillPath rootPath) "/").data.length⟩
  else .error (cat "File path is outside the requested skill directory: " fullPath)

/-! ## The manifest header parser (`parseSkillFrontmatter`)

The source extracts the YAML-like header with three regular expressions:

* `/^---\r?\n([\s\S]*?)\r?\n---\r?\n?/` — the delimited header block;
* `/(?:^|\r?\n)name:\s*("?)([a-z0-9]+(?:-[a-z0-9]+)*)\1(?:\r?\n|$)/`;
* `/(?:^|\r?\n)description:\s*("?)(.*?)\1(?:\r?\n|$)/`.

Each is embedded as a deterministic scanner.  Laziness of `([\s\S]*?)` is the
first-closing-delimiter search of `findClose`; greediness of `\s*` needs no
backtracking because none of the characters that may follow it (`"`, a name
character, a `.`-matched description character at a shorter munch) can be a
whitespace character that would have been given back. -/

/-- The parsed header record: the `name` and `description` fields. -/
structure ParsedSkillFrontmatter where
  name : String
  description : String
  deriving Repr, DecidableEq

/-- Strip a leading byte-order mark (`replace(/^﻿/, '')`). -/
def stripBom : List Char → List Char
  | '﻿' :: rest => rest
  | cs => cs

/-- Match `\r?\n` at the head, returning the remainder. -/
def matchNewline : List Char → Option (List Char)
  | '\r' :: '\n' :: rest => some rest
  | '\n' :: rest => some rest
  | _ => none

/-- `(?:\r?\n|$)` at the head. -/
def lineEndB (cs : List Char) : Bool := cs.isEmpty || (matchNewline cs).isSome

/-- Does `\r?\n---` match at the head?  (The close delimiter of the header
block; its trailing `\r?\n?` is optional and not part of the captured group.) -/
def isClose : List Char → Bool
  | '\r' :: '\n' :: '-' :: '-' :: '-' :: _ => true
  | '\n' :: '-' :: '-' :: '-' :: _ => true
  | _ => false

/-- Lazy search for the close delimiter: the captured group is the shortest
prefix after which `\r?\n---` matches. -/
def findClose : List Char → Option (List Char)
  | [] => none
  | c :: rest =>
    if isClose (c :: rest) then some []
    else (findClose rest).map (fun g => c :: g)

/-- Group 1 of the header-block regular expression, when it matches. -/
def frontmatterContent (cs : List Char) : Option (List Char) :=
  match cs with
  | '-' :: '-' :: '-' :: rest =>
    match matchNewline rest with
    | some rest2 => findClose rest2
    | none => none
  | _ => none

/-- The JavaScript `\s` character class (the characters relevant to this
code base; the exotic Unicode space separators are omitted). -/
def isRegexSpace (c : Char) : Bool :=
  c = ' ' || c = '\t' || c = '\n' || c = '\r' ||
  c.toNat = 11 || c.toNat = 12 || c.toNat = 0xa0 || c.toNat = 0xfeff

/-- Maximal munch of `[a-z0-9]+(?:-[a-z0-9]+)*` at the head of the list.
`needGroup = true` demands that a fresh `[a-z0-9]+` group start here (and
fails otherwise); `needGroup = false` continues an open group and always
succeeds.  Returns the munched characters and the remainder. -/
def munchName : Bool → List Char → Option (List Char × List Char)
  | true, [] => none
  | true, c :: rest =>
    if isLowerAlnum c then (munchName false rest).map (fun p => (c :: p.1, p.2)) else none
  | false, [] => some ([], [])
  | false, c :: rest =>
    if isLowerAlnum c then (munchName false rest).map (fun p => (c :: p.1, p.2))
    else if c = '-' then
      match munchName true rest with
      | some p => some ('-' :: p.1, p.2)
      | none => some ([], c :: rest)
    else some ([], c :: rest)

/-- After a quoted name capture: require the closing `"` and then
`(?:\r?\n|$)`. -/
def closeQuoteName (nm r : List Char) : Option (List Char) :=
  match r with
  | '"' :: r2 => if lineEndB r2 then some nm else none
  | _ => none

/-- After an unquoted name capture (empty group 1 backreference): require
`(?:\r?\n|$)`. -/
def closePlainName (nm r : List Char) : Option (List Char) :=
  if lineEndB r then some nm else none

/-- Try the `name` field pattern anchored at the head of `cs` (which is the
position right after `^` or `\r?\n`).  Returns the captured name. -/
def matchNameAt (cs : List Char) : Option (List Char) :=
  match cs with
  | 'n' :: 'a' :: 'm' :: 'e' :: ':' :: rest =>
    match rest.dropWhile isRegexSpace with
    | '"' :: rest3 =>
      match munchName true rest3 with
      | some (nm, r) => closeQuoteName nm r
      | none => none
    | stripped =>
      match munchName true stripped with
      | some (nm, r) => closePlainName nm r
      | none => none
  | _ => none

/-- Scan `cs` left to right for the first anchored position where the `name`
pattern matches; `anchored` records whether the current position follows `^`
or a newline. -/
def findName : List Char → Bool → Option (List Char)
  | [], _ => none
  | c :: rest, anchored =>
    match (if anchored then matchNameAt (c :: rest) else none) with
    | some nm => some nm
    | none => findName rest (c = '\n')

/-- `.*?` up to the first position where `(?:\r?\n|$)` matches: all characters
before the next `\n` (a `\r` immediately preceding that `\n` is also given to
the terminator, not to the capture). -/
def descTake : List Char → List Char
  | [] => []
  | '\n' :: _ => []
  | '\r' :: '\n' :: _ => []
  | c :: rest => c :: descTake rest

/-- The quoted alternative of the description pattern: the lazy capture grows
until the first `"` that is directly followed by `(?:\r?\n|$)`; it may not
cross a newline, and fails when no such closing quote exists on the line. -/
def quotedScan : List Char → Option (List Char)
  | [] => none
  | '\n' :: _ => none
  | '"' :: tail =>
    if lineEndB tail then some []
    else (quotedScan tail).map (fun g => '"' :: g)
  | c :: rest => (quotedScan rest).map (fun g => c :: g)

/-- Try the `description` field pattern anchored at the head of `cs`.  When the
value starts with a quote but the quoted alternative fails, the engine
backtracks to an empty group 1 and the capture starts at the quote itself; the
unquoted alternative always succeeds. -/
def matchDescAt (cs : List Char) : Option (List Char) :=
  match cs with
  | 'd' :: 'e' :: 's' :: 'c' :: 'r' :: 'i' :: 'p' :: 't' :: 'i' :: 'o' :: 'n' :: ':' :: rest =>
    match rest.dropWhile isRegexSpace with
    | '"' :: rest3 =>
      match quotedScan rest3 with
      | some content => some content
      | none => some ('"' :: descTake rest3)
    | stripped => some (descTake stripped)
  | _ => none

/-- Scan for the first anchored position where the `description` pattern
matches. -/
def findDesc : List Char → Bool → Option (List Char)
  | [], _ => none
  | c :: rest, anchored =>
    match (if anchored then matchDescAt (c :: rest) else none) with
    | some d => some d
    | none => findDesc rest (c = '\n')

/-- `parseSkillFrontmatter` from the source: extract the header block, require
a `name` field, and take the (optional) `description` field, trimmed, with
`''` as the default. -/
def parseSkillFrontmatter (markdown : String) : Except String ParsedSkillFrontmatter :=
  match frontmatterContent (stripBom markdown.data) with
  | none => .error "SKILL.md must start with YAML frontmatter"
  | some content =>
    match findName content true with
    | none => .error "SKILL.md frontmatter must define name"
    | some nm =>
      match findDesc content true with
      | some d => .ok { name := ⟨nm⟩, description := ⟨trimChars d⟩ }
      | none => .ok { name := ⟨nm⟩, description := "" }

/-! ## The content hasher (`computeGitBlobSha`)

`crypto.subtle.digest('SHA-1', payload)` is embedded as a full SHA-1
implementation over byte lists (FIPS 180 padding, 16→80 word expansion, the
80-round compression), so that the hash of a concrete byte sequence is a
computable fact of the model. -/

/-- Truncation to a 32-bit word. -/
def w32 (n : Nat) : Nat := n % 4294967296

/-- 32-bit left rotation (argument assumed below `2^32`). -/
def rotl (k x : Nat) : Nat := w32 ((x <<< k) ||| (x >>> (32 - k)))

/-- SHA-1 message padding: `0x80`, zeros to 56 mod 64, 8-byte big-endian bit
length. -/
def sha1Pad (msg : List Nat) : List Nat :=
  let len := msg.length
  let bitLen := 8 * len
  let zeros := (64 + 55 - len % 64) % 64
  msg ++ 0x80 :: (List.replicate zeros 0 ++
    [(bitLen >>> 56) % 256, (bitLen >>> 48) % 256, (bitLen >>> 40) % 256,
     (bitLen >>> 32) % 256, (bitLen >>> 24) % 256, (bitLen >>> 16) % 256,
     (bitLen >>> 8) % 256, bitLen % 256])

/-- Big-endian 4-byte groups to 32-bit words. -/
def bytesToWords : List Nat → List Nat
  | b0 :: b1 :: b2 :: b3 :: rest =>
    ((b0 <<< 24) ||| (b1 <<< 16) ||| (b2 <<< 8) ||| b3) :: bytesToWords rest
  | _ => []

/-- Expand a 16-word block to the 80-word schedule. -/
def sha1Expand (ws : List Nat) : List Nat :=
  (List.range 64).foldl
    (fun w _ =>
      let n := w.length
      w ++ [rotl 1 ((w.getD (n - 3) 0) ^^^ (w.getD (n - 8) 0) ^^^
                    (w.getD (n - 14) 0) ^^^ (w.getD (n - 16) 0))])
    ws

/-- The SHA-1 round function. -/
def sha1F (t b c d : Nat) : Nat :=
  if t < 20 then (b &&& c) ||| ((b ^^^ 0xFFFFFFFF) &&& d)
  else if t < 40 then b ^^^ c ^^^ d
  else if t < 60 then (b &&& c) ||| (b &&& d) ||| (c &&& d)
  else b ^^^ c ^^^ d

/-- The SHA-1 round constants. -/
def sha1K (t : Nat) : Nat :=
  if t < 20 then 0x5A827999
  else if t < 40 then 0x6ED9EBA1
  else if t < 60 then 0x8F1BBCDC
  else 0xCA62C1D6

/-- The five-word SHA-1 internal state. -/
structure Sha1State where
  a : Nat
  b : Nat
  c : Nat
  d : Nat
  e : Nat
  deriving Repr, DecidableEq

/-- One SHA-1 round. -/
def sha1Round (w : List Nat) (st : Sha1State) (t : Nat) : Sha1State :=
  let temp := w32 (rotl 5 st.a + sha1F t st.b st.c st.d + st.e + sha1K t + w.getD t 0)
  ⟨temp, st.a, rotl 30 st.b, st.c, st.d⟩

/-- Process one 16-word block. -/
def sha1Chunk (h : Sha1State) (chunk : List Nat) : Sha1State :=
  let w := sha1Expand chunk
  let f := (List.range 80).foldl (sha1Round w) h
  ⟨w32 (h.a + f.a), w32 (h.b + f.b), w32 (h.c + f.c), w32 (h.d + f.d), w32 (h.e + f.e)⟩

/-- Fold the block-processing function over successive 16-word blocks
(structurally recursive so that the whole digest reduces in the kernel; the
padded message is always a whole number of blocks). -/
def sha1Blocks (st : Sha1State) : List Nat → Sha1State
  | w0 :: w1 :: w2 :: w3 :: w4 :: w5 :: w6 :: w7 ::
    w8 :: w9 :: w10 :: w11 :: w12 :: w13 :: w14 :: w15 :: rest =>
    sha1Blocks (sha1Chunk st [w0, w1, w2, w3, w4, w5, w6, w7,
                              w8, w9, w10, w11, w12, w13, w14, w15]) rest
  | _ => st

/-- The SHA-1 initialization vector. -/
def sha1Init : Sha1State :=
  ⟨0x67452301, 0xEFCDAB89, 0x98BADCFE, 0x10325476, 0xC3D2E1F0⟩

/-- Big-endian bytes of a 32-bit word. -/
def wordBytes (w : Nat) : List Nat :=
  [(w >>> 24) % 256, (w >>> 16) % 256, (w >>> 8) % 256, w % 256]

/-- SHA-1 of a byte list: the 20-byte digest. -/
def sha1 (msg : List Nat) : List Nat :=
  let f := sha1Blocks sha1Init (bytesToWords (sha1Pad msg))
  wordBytes f.a ++ wordBytes f.b ++ wordBytes f.c ++ wordBytes f.d ++ wordBytes f.e

/-- Lowercase hexadecimal digit. -/
def hexDigit (k : Nat) : Char :=
  if k < 10 then Char.ofNat (48 + k) else Char.ofNat (87 + k)

/-- Two lowercase hex digits of a byte (`byte.toString(16).padStart(2, '0')`). -/
def byteHex (b : Nat) : List Char := [hexDigit (b / 16), hexDigit (b % 16)]

/-- Render a byte list as a lowercase hexadecimal string. -/
def bytesToHex (bs : List Nat) : String := ⟨bs.flatMap byteHex⟩

/-- ASCII bytes of a string (the `TextEncoder` encoding of the all-ASCII
header `blob ${byteLength}\0`). -/
def asciiBytes (s : String) : List Nat := s.data.map Char.toNat

/-- The length-prefixed payload `"blob " + byteLength + NUL + bytes` hashed by
`computeGitBlobSha`. -/
def gitBlobPayload (bytes : List Nat) : List Nat :=
  asciiBytes (cat "blob " ⟨Nat.toDigits 10 bytes.length⟩) ++ 0 :: bytes

/-- `computeGitBlobSha` from the source: SHA-1 of the length-prefixed payload,
rendered as lowercase hex. -/
def computeGitBlobSha (bytes : List Nat) : String :=
  bytesToHex (sha1 (gitBlobPayload bytes))

/-! ## Sorting helpers

JavaScript `localeCompare`-based `Array.prototype.sort` calls are modelled as
code-point insertion sort. -/

/-- `names.sort((a, b) => a.localeCompare(b))`, modelled with code-point
comparison. -/
def sortStrings (l : List String) : List String :=
  l.insertionSort (fun a b => strLeB a b = true)

/-- A `{path, sha}` record of a per-file hash list (`GitHubSkillSourceFile`). -/
structure GitHubSkillSourceFile where
  path : String
  sha : String
  deriving Repr, DecidableEq

/-- `files.sort((a, b) => a.path.localeCompare(b.path))`. -/
def sortSourceFiles (files : List GitHubSkillSourceFile) : List GitHubSkillSourceFile :=
  files.insertionSort (fun a b => strLeB a.path b.path = true)

/-! ## The remote surface and the local store -/

/-- The reserved sidecar file name `SOURCE_METADATA_FILENAME`. -/
def sourceMetadataFilename : String := ".openbrowserclaw-source.json"

/-- `type` of a GitHub contents-API entry. -/
inductive EntryKind
  | file
  | dir
  deriving Repr, DecidableEq

/-- A GitHub contents-API directory entry (the fields the code reads). -/
structure GitHubDirectoryEntry where
  name : String
  path : String
  sha : String
  url : String
  type : EntryKind
  deriving Repr, DecidableEq

/-- A resolved `{owner, repo, ref, path, originalUrl}` target. -/
structure GitHubRepoTarget where
  owner : String
  repo : String
  ref : String
  path : String
  originalUrl : String
  deriving Repr, DecidableEq

/-- The remote GitHub HTTP surface, as an oracle: `listDir p` is the parsed
directory listing the contents API returns for path `p` (or the error the
request produces — HTTP failure, timeout, non-directory payload);
`fetchFile u` is the decoded text content behind file-API url `u` (transport
base64 decoding and UTF-8 text decoding are platform codecs, so file content
is carried as the decoded string; its bytes are `utf8Bytes` of it).  `now` is
the `new Date().toISOString()` clock reading. -/
structure RemoteEnv where
  listDir : String → Except String (List GitHubDirectoryEntry)
  fetchFile : String → Except String String
  now : String

/-- Standard UTF-8 encoding of one code point. -/
def utf8EncodeCharNat (c : Char) : List Nat :=
  if c.toNat < 0x80 then [c.toNat]
  else if c.toNat < 0x800 then
    [0xC0 ||| (c.toNat >>> 6), 0x80 ||| (c.toNat &&& 0x3F)]
  else if c.toNat < 0x10000 then
    [0xE0 ||| (c.toNat >>> 12), 0x80 ||| ((c.toNat >>> 6) &&& 0x3F),
     0x80 ||| (c.toNat &&& 0x3F)]
  else
    [0xF0 ||| (c.toNat >>> 18), 0x80 ||| ((c.toNat >>> 12) &&& 0x3F),
     0x80 ||| ((c.toNat >>> 6) &&& 0x3F), 0x80 ||| (c.toNat &&& 0x3F)]

/-- UTF-8 bytes of a string (models `TextEncoder.encode`, and the raw bytes a
base64 `Uint8Array` decodes to for a text file). -/
def utf8Bytes (s : String) : List Nat := s.data.flatMap utf8EncodeCharNat

/-- The persisted sidecar record.  The constant discriminants
`version: 1` and `type: 'github'` are carried by the Lean type itself; the
remaining fields are those of `GitHubSkillSourceMetadata`. -/
structure GitHubSkillSourceMetadata where
  owner : String
  repo : String
  ref : String
  path : String
  originalUrl : String
  installedAt : String
  files : List GitHubSkillSourceFile
  deriving Repr, DecidableEq

/-- Content of one local file: raw bytes for ordinary content, or the
structural sidecar record (standing for its JSON serialization). -/
inductive FileContent
  | bytesF (bytes : List Nat)
  | metaF (m : GitHubSkillSourceMetadata)
  deriving Repr, DecidableEq

/-- One skill directory: a flat map from slash-joined relative path to file
content (nested OPFS directories are flattened into their joined paths). -/
abbrev SkillDir := List (String × FileContent)

/-- The OPFS skills root: one directory per installed skill. -/
structure LocalStore where
  skills : List (String × SkillDir)
  deriving Repr, DecidableEq

/-- Association-list lookup (first occurrence). -/
def lookupList {α : Type} (l : List (String × α)) (k : String) : Option α :=
  (l.find? (fun e => e.1 == k)).map (fun e => e.2)

/-- Insert-or-replace for an association list (replaces the first occurrence
in place, else appends), the model of writing a file or directory entry. -/
def upsert {α : Type} : List (String × α) → String → α → List (String × α)
  | [], k, v => [(k, v)]
  | (k0, v0) :: rest, k, v =>
    if k0 = k then (k, v) :: rest else (k0, v0) :: upsert rest k v

/-- `listUserSkillNames`: the skill directory names, sorted. -/
def listUserSkillNames (store : LocalStore) : List String :=
  sortStrings (store.skills.map Prod.fst)

/-- `getUserSkillDir`: validate the skill name, then open (or with `create`,
open-or-create) the per-skill directory. -/
def getUserSkillDir (store : LocalStore) (skillName : String) (create : Bool) :
    Except String (LocalStore × SkillDir) :=
  match validateSkillName skillName with
  | some nameError => .error nameError
  | none =>
    match lookupList store.skills skillName with
    | some dir => .ok (store, dir)
    | none =>
      if create then .ok ({ skills := store.skills ++ [(skillName, [])] }, [])
      else .error (cat "No skill directory: " skillName)

/-- Replace one skill directory in the store. -/
def setSkillDir (store : LocalStore) (skillName : String) (dir : SkillDir) : LocalStore :=
  { skills := upsert store.skills skillName dir }

/-- `writeSkillFileBytes`: split the relative path on `/` dropping empty
segments, fail on an empty result, create intermediate directories, write the
file (modelled as an upsert at the joined key). -/
def writeSkillFileBytes (dir : SkillDir) (relativePath : String) (content : List Nat) :
    Except String SkillDir :=
  match pathSegments relativePath with
  | [] => .error "Invalid file path"
  | parts => .ok (upsert dir (joinSegments parts) (.bytesF content))

/-- `writeSkillFileText` applied to the sidecar metadata file:
`JSON.stringify` is modelled by storing the record structurally. -/
def writeSkillMetadataFile (dir : SkillDir) (m : GitHubSkillSourceMetadata) : SkillDir :=
  upsert dir sourceMetadataFilename (.metaF m)

/-- `listSkillFiles`: the relative paths of all files under a skill directory
(the flat keys; the source's recursive walk produces exactly the slash-joined
nested paths). -/
def listSkillFiles (dir : SkillDir) : List String := dir.map Prod.fst

/-- `readUserSkillFileBytes`: re-split the relative path and read the bytes at
the joined key.  Reading the structurally stored sidecar as raw bytes is not
modelled (its JSON text is outside the model). -/
def readUserSkillFileBytes (store : LocalStore) (skillName relativePath : String) :
    Except String (List Nat) :=
  match validateSkillName skillName with
  | some nameError => .error nameError
  | none =>
    match lookupList store.skills skillName with
    | none => .error (cat "No skill directory: " skillName)
    | some dir =>
      match pathSegments relativePath with
      | [] => .error "Invalid file path"
      | parts =>
        match lookupList dir (joinSegments parts) with
        | some (.bytesF b) => .ok b
        | some (.metaF _) => .error "sidecar bytes are outside the model"
        | none => .error (cat "No file: " relativePath)

/-- `readGitHubSkillSourceMetadata`: read and JSON-parse the sidecar file;
any failure (missing directory, missing file, malformed content) yields
`none`.  The `version`/`type` discriminant and per-file field checks hold by
construction on the structural record; the file list is sorted by path. -/
def readGitHubSkillSourceMetadata (store : LocalStore) (skillName : String) :
    Option GitHubSkillSourceMetadata :=
  match validateSkillName skillName with
  | some _ => none
  | none =>
    match lookupList store.skills skillName with
    | none => none
    | some dir =>
      match lookupList dir sourceMetadataFilename with
      | some (.metaF m) => some { m with files := sortSourceFiles m.files }
      | _ => none

/-- `deleteUserSkill`: remove the whole per-skill directory (throws when it
does not exist, like `removeEntry`). -/
def deleteUserSkill (store : LocalStore) (skillName : String) : Except String LocalStore :=
  if (lookupList store.skills skillName).isSome then
    .ok { skills := store.skills.filter (fun e => e.1 ≠ skillName) }
  else .error (cat "No skill directory: " skillName)

/-! ## Bundle fetching -/

/-- One fetched remote file: repository path, remote-reported blob sha, raw
bytes. -/
structure RemoteFile where
  path : String
  sha : String
  bytes : List Nat
  deriving Repr, DecidableEq

/-- `files.sort((a, b) => a.path.localeCompare(b.path))` on fetched files. -/
def sortRemoteFiles (files : List RemoteFile) : List RemoteFile :=
  files.insertionSort (fun a b => strLeB a.path b.path = true)

/-- The recursive walk of `collectGitHubFiles`, processing a pending entry
list; directory entries recurse into their listing, file entries fetch their
bytes.  `fuel` bounds the recursion depth (the real remote tree is finite) and
is the structural recursion argument, so the walk reduces in the kernel. -/
def collectAux (env : RemoteEnv) : Nat → List GitHubDirectoryEntry →
    Except String (List RemoteFile)
  | _, [] => .ok []
  | 0, _ :: _ => .error "remote recursion budget exhausted"
  | Nat.succ fuel, e :: rest => do
    let first ←
      match e.type with
      | EntryKind.dir => do
        let entries ← env.listDir e.path
        collectAux env fuel entries
      | EntryKind.file =>
        (env.fetchFile e.url).map (fun content => [⟨e.path, e.sha, utf8Bytes content⟩])
    let others ← collectAux env fuel rest
    pure (first ++ others)

/-- `collectGitHubFiles`: all files (path, sha, bytes) below a directory. -/
def collectGitHubFiles (env : RemoteEnv) (fuel : Nat) (directoryPath : String) :
    Except String (List RemoteFile) := do
  let entries ← env.listDir directoryPath
  collectAux env fuel entries

/-- The hash-only walk of `collectGitHubFileShas` (no byte download). -/
def collectShasAux (env : RemoteEnv) : Nat → List GitHubDirectoryEntry →
    Except String (List GitHubSkillSourceFile)
  | _, [] => .ok []
  | 0, _ :: _ => .error "remote recursion budget exhausted"
  | Nat.succ fuel, e :: rest => do
    let first ←
      match e.type with
      | EntryKind.dir => do
        let entries ← env.listDir e.path
        collectShasAux env fuel entries
      | EntryKind.file => pure [(⟨e.path, e.sha⟩ : GitHubSkillSourceFile)]
    let others ← collectShasAux env fuel rest
    pure (first ++ others)

/-- `collectGitHubFileShas`: all `{path, sha}` pairs below a directory. -/
def collectGitHubFileShas (env : RemoteEnv) (fuel : Nat) (directoryPath : String) :
    Except String (List GitHubSkillSourceFile) := do
  let entries ← env.listDir directoryPath
  collectShasAux env fuel entries

/-- The guard `remoteDirName && remoteDirName !== skillName`: mismatch between
the last path segment of the remote directory (when there is one) and the
declared skill name. -/
def dirNameMismatch (path skillName : String) : Bool :=
  match (pathSegments path).getLast? with
  | some remoteDirName => remoteDirName != skillName
  | none => false

/-- The result of `fetchGitHubSkillBundle`. -/
structure GitHubSkillBundle where
  skillName : String
  files : List RemoteFile
  deriving Repr, DecidableEq

/-- `fetchGitHubSkillBundle`: require `SKILL.md` at the target, parse and
validate its declared name, require it to match the remote directory
basename, then collect all files and sort by path. -/
def fetchGitHubSkillBundle (env : RemoteEnv) (fuel : Nat) (target : GitHubRepoTarget) :
    Except String GitHubSkillBundle := do
  let rootEntries ← env.listDir target.path
  match rootEntries.find? (fun e => e.type == EntryKind.file && e.name == "SKILL.md") with
  | none => .error "Target directory must contain SKILL.md"
  | some skillMarkdownEntry => do
    let skillMarkdown ← env.fetchFile skillMarkdownEntry.url
    let parsedSkill ← parseSkillFrontmatter skillMarkdown
    match validateSkillName parsedSkill.name with
    | some nameError => .error (cat "Invalid skill name in SKILL.md: " nameError)
    | none =>
      if dirNameMismatch target.path parsedSkill.name then
        .error "GitHub directory name must match the skill name declared in SKILL.md"
      else do
        let files ← collectGitHubFiles env fuel target.path
        pure { skillName := parsedSkill.name, files := sortRemoteFiles files }

/-- The result of `fetchGitHubSkillSnapshot`. -/
structure GitHubSkillSnapshot where
  skillName : String
  files : List GitHubSkillSourceFile
  deriving Repr, DecidableEq

/-- `fetchGitHubSkillSnapshot`: as the bundle fetch, but hashes only. -/
def fetchGitHubSkillSnapshot (env : RemoteEnv) (fuel : Nat) (target : GitHubRepoTarget) :
    Except String GitHubSkillSnapshot := do
  let rootEntries ← env.listDir target.path
  match rootEntries.find? (fun e => e.type == EntryKind.file && e.name == "SKILL.md") with
  | none => .error "Target directory must contain SKILL.md"
  | some skillMarkdownEntry => do
    let skillMarkdown ← env.fetchFile skillMarkdownEntry.url
    let parsedSkill ← parseSkillFrontmatter skillMarkdown
    match validateSkillName parsedSkill.name with
    | some nameError => .error (cat "Invalid skill name in SKILL.md: " nameError)
    | none =>
      if dirNameMismatch target.path parsedSkill.name then
        .error "GitHub directory name must match the skill name declared in SKILL.md"
      else do
        let files ← collectGitHubFileShas env fuel target.path
        pure { skillName := parsedSkill.name, files := sortSourceFiles files }

/-! ## Collection discovery -/

/-- A candidate unit produced by collection discovery. -/
structure GitHubDiscoveredSkill where
  skillName : String
  description : String
  owner : String
  repo : String
  ref : String
  path : String
  originalUrl : String
  alreadyInstalled : Bool
  deriving Repr, DecidableEq

/-- `buildGitHubTreeUrl` (with `encodeURIComponent` as the identity: the
segments of this model carry no characters needing escape). -/
def buildGitHubTreeUrl (owner repo ref path : String) : String :=
  let segs := pathSegments path
  if segs.isEmpty then cat "https://github.com/" (cat owner (cat "/" repo))
  else
    cat "https://github.com/"
      (cat owner (cat "/" (cat repo (cat "/tree/" (cat ref (cat "/" (joinSegments segs)))))))

/-- `skills.sort((a, b) => a.skillName.localeCompare(b.skillName))`. -/
def sortDiscovered (skills : List GitHubDiscoveredSkill) : List GitHubDiscoveredSkill :=
  skills.insertionSort (fun a b => strLeB a.skillName b.skillName = true)

/-- `discoverGitHubSkillDirectory`: lightweight discovery of one candidate
subdirectory.  `none` means no `SKILL.md` there (candidate silently skipped);
an error is a per-candidate failure the caller downgrades to a warning. -/
def discoverGitHubSkillDirectory (env : RemoteEnv) (baseTarget : GitHubRepoTarget)
    (directoryPath : String) (existingSkills : List String) :
    Except String (Option GitHubDiscoveredSkill) := do
  let entries ← env.listDir directoryPath
  match entries.find? (fun e => e.type == EntryKind.file && e.name == "SKILL.md") with
  | none => pure none
  | some skillMarkdownEntry => do
    let skillMarkdown ← env.fetchFile skillMarkdownEntry.url
    let parsedSkill ← parseSkillFrontmatter skillMarkdown
    match validateSkillName parsedSkill.name with
    | some nameError => .error (cat "Invalid skill name in SKILL.md: " nameError)
    | none =>
      if dirNameMismatch directoryPath parsedSkill.name then
        .error "GitHub directory name must match the skill name declared in SKILL.md"
      else
        pure (some
          { skillName := parsedSkill.name
            description := parsedSkill.description
            owner := baseTarget.owner
            repo := baseTarget.repo
            ref := baseTarget.ref
            path := directoryPath
            originalUrl := buildGitHubTreeUrl baseTarget.owner baseTarget.repo baseTarget.ref directoryPath
            alreadyInstalled := existingSkills.contains parsedSkill.name })

/-- The result of `discoverGitHubSkillInstallTarget`. -/
inductive GitHubSkillInstallDiscovery
  | single
  | collection (owner repo ref path originalUrl : String)
      (skills : List GitHubDiscoveredSkill) (warnings : List String)
  deriving Repr, DecidableEq

/-- `discoverGitHubSkillInstallTarget` (after URL resolution): `single` when
`SKILL.md` sits at the target itself; otherwise scan the immediate
subdirectories, catching each per-child failure as a warning
`"<child>: <message>"`, and return the sorted survivors — failing with the
no-installable-skills error when none survived.  The `Promise.all` fan-out
completes in input order for the discovered list; the warning list is
push-ordered by completion but sorted afterwards, so it is modelled in input
order before that sort. -/
def discoverGitHubSkillInstallTarget (env : RemoteEnv) (store : LocalStore)
    (target : GitHubRepoTarget) : Except String GitHubSkillInstallDiscovery := do
  let rootEntries ← env.listDir target.path
  if rootEntries.any (fun e => e.type == EntryKind.file && e.name == "SKILL.md") then
    pure GitHubSkillInstallDiscovery.single
  else
    let childDirectories := rootEntries.filter (fun e => e.type == EntryKind.dir)
    let existing := listUserSkillNames store
    let outcomes := childDirectories.map
      (fun e => (e.name, discoverGitHubSkillDirectory env target e.path existing))
    let warnings := outcomes.filterMap
      (fun p => match p.2 with
        | .error m => some (cat p.1 (cat ": " m))
        | .ok _ => none)
    let discovered := outcomes.filterMap
      (fun p => match p.2 with
        | .ok (some s) => some s
        | _ => none)
    let skills := sortDiscovered discovered
    if skills.isEmpty then .error "No installable skills found in this GitHub directory"
    else
      pure (GitHubSkillInstallDiscovery.collection target.owner target.repo target.ref
        target.path target.originalUrl skills (sortStrings warnings))

/-! ## Install -/

/-- The result of a single successful install. -/
structure GitHubInstallResult where
  skillName : String
  fileCount : Nat
  deriving Repr, DecidableEq

/-- `writeGitHubSkillBundle`: write each fetched file under its relative path,
in order, stopping at the first failure (`some error`); the files already
written stay written. -/
def writeGitHubSkillBundle (dir : SkillDir) (targetPath : String) (files : List RemoteFile) :
    SkillDir × Option String :=
  match files with
  | [] => (dir, none)
  | f :: rest =>
    match toRelativeSkillPath targetPath f.path with
    | .error e => (dir, some e)
    | .ok relativePath =>
      match writeSkillFileBytes dir relativePath f.bytes with
      | .error e => (dir, some e)
      | .ok dir2 => writeGitHubSkillBundle dir2 targetPath rest

/-- `installGitHubSkillTarget`: fetch the bundle, reject when the name is
already present locally, create the skill directory, write the bundle, then
write the sidecar metadata.  Returns the updated store together with the
outcome (a failed write leaves the files already written). -/
def installGitHubSkillTarget (env : RemoteEnv) (fuel : Nat) (store : LocalStore)
    (target : GitHubRepoTarget) : LocalStore × Except String GitHubInstallResult :=
  match fetchGitHubSkillBundle env fuel target with
  | .error e => (store, .error e)
  | .ok bundle =>
    if (listUserSkillNames store).contains bundle.skillName then
      (store, .error (cat "Skill already exists: " bundle.skillName))
    else
      match getUserSkillDir store bundle.skillName true with
      | .error e => (store, .error e)
      | .ok (store1, dir) =>
        match writeGitHubSkillBundle dir target.path bundle.files with
        | (dir2, some e) => (setSkillDir store1 bundle.skillName dir2, .error e)
        | (dir2, none) =>
          match bundle.files.mapM (fun f =>
            (toRelativeSkillPath target.path f.path).map
              (fun rel => (⟨rel, f.sha⟩ : GitHubSkillSourceFile))) with
          | .error e => (setSkillDir store1 bundle.skillName dir2, .error e)
          | .ok metadataFiles =>
            let metadata : GitHubSkillSourceMetadata :=
              { owner := target.owner
                repo := target.repo
                ref := target.ref
                path := target.path
                originalUrl := target.originalUrl
                installedAt := env.now
                files := metadataFiles }
            (setSkillDir store1 bundle.skillName (writeSkillMetadataFile dir2 metadata),
             .ok { skillName := bundle.skillName, fileCount := bundle.files.length })

/-! ## The batch installer -/

/-- Per-unit batch outcome status. -/
inductive BulkStatus
  | installed
  | skipped
  | failed
  deriving Repr, DecidableEq

/-- One entry of the batch result. -/
structure GitHubBulkInstallItem where
  skillName : String
  status : BulkStatus
  fileCount : Nat
  message : Option String
  deriving Repr, DecidableEq

/-- The batch result. -/
structure GitHubBulkInstallResult where
  results : List GitHubBulkInstallItem
  deriving Repr, DecidableEq

/-- The target a discovered skill is re-installed from. -/
def targetOfDiscovered (skill : GitHubDiscoveredSkill) : GitHubRepoTarget :=
  { owner := skill.owner
    repo := skill.repo
    ref := skill.ref
    path := skill.path
    originalUrl := skill.originalUrl }

/-- The per-unit body of `installSelectedGitHubSkills`: run the single-unit
install and classify its outcome — a failure whose message starts with
`Skill already exists:` becomes `skipped`, any other failure `failed` with the
message retained. -/
def installOneOutcome (env : RemoteEnv) (fuel : Nat) (store : LocalStore)
    (skill : GitHubDiscoveredSkill) : GitHubBulkInstallItem :=
  match (installGitHubSkillTarget env fuel store (targetOfDiscovered skill)).2 with
  | .ok installed =>
    { skillName := installed.skillName
      status := BulkStatus.installed
      fileCount := installed.fileCount
      message := none }
  | .error message =>
    if strStartsWith message "Skill already exists:" then
      { skillName := skill.skillName
        status := BulkStatus.skipped
        fileCount := 0
        message := some message }
    else
      { skillName := skill.skillName
        status := BulkStatus.failed
        fileCount := 0
        message := some message }

/-- `installSelectedGitHubSkills`: install every selected unit independently
and collect one outcome per unit; the call itself never fails.  The
`Promise.all` fan-out starts every install against the same observed store, so
each unit is modelled as an independent run against the initial store;
results keep input order. -/
def installSelectedGitHubSkills (env : RemoteEnv) (fuel : Nat) (store : LocalStore)
    (skills : List GitHubDiscoveredSkill) : GitHubBulkInstallResult :=
  { results := skills.map (installOneOutcome env fuel store) }

/-! ## The update engine -/

/-- The diff outcome between stored metadata and a fresh remote snapshot. -/
structure GitHubSkillUpdateCheckResult where
  skillName : String
  updateAvailable : Bool
  added : List String
  modified : List String
  removed : List String
  remoteFileCount : Nat
  deriving Repr, DecidableEq

/-- `new Map(entries).get(k)`: the value of the last entry with key `k`. -/
def jsMapGet (entries : List (String × String)) (k : String) : Option String :=
  (entries.reverse.find? (fun e => e.1 == k)).map (fun e => e.2)

/-- `new Map(entries).has(k)`. -/
def jsMapHas (entries : List (String × String)) (k : String) : Bool :=
  (jsMapGet entries k).isSome

/-- The first loop of `diffGitHubSkillMetadata`, over the (relativized,
sorted) remote files, producing `(added, modified)` in iteration order.  Note
the JavaScript truthiness test `if (!localSha)`: a recorded *empty-string*
hash is treated like an absent entry and classified `added`. -/
def diffRemoteLoop (localByPath : List (String × String)) :
    List GitHubSkillSourceFile → List String × List String
  | [] => ([], [])
  | f :: rest =>
    let (a, m) := diffRemoteLoop localByPath rest
    match jsMapGet localByPath f.path with
    | none => (f.path :: a, m)
    | some localSha =>
      if localSha = "" then (f.path :: a, m)
      else if localSha ≠ f.sha then (a, f.path :: m)
      else (a, m)

/-- The second loop of `diffGitHubSkillMetadata`: locally recorded files whose
path the remote map no longer has, in iteration order. -/
def diffRemovedLoop (remoteByPath : List (String × String)) :
    List GitHubSkillSourceFile → List String
  | [] => []
  | f :: rest =>
    if jsMapHas remoteByPath f.path then diffRemovedLoop remoteByPath rest
    else f.path :: diffRemovedLoop remoteByPath rest

/-- The pure classification core of `diffGitHubSkillMetadata`, over the
already-relativized, sorted remote file list: the two loops, and
`updateAvailable` iff any of the three lists is non-empty. -/
def diffCore (skillName : String) (metadataFiles remoteFiles : List GitHubSkillSourceFile) :
    GitHubSkillUpdateCheckResult :=
  { skillName
    updateAvailable :=
      !(diffRemoteLoop (metadataFiles.map fun f => (f.path, f.sha)) remoteFiles).1.isEmpty ||
      !(diffRemoteLoop (metadataFiles.map fun f => (f.path, f.sha)) remoteFiles).2.isEmpty ||
      !(diffRemovedLoop (remoteFiles.map fun f => (f.path, f.sha)) metadataFiles).isEmpty
    added := (diffRemoteLoop (metadataFiles.map fun f => (f.path, f.sha)) remoteFiles).1
    modified := (diffRemoteLoop (metadataFiles.map fun f => (f.path, f.sha)) remoteFiles).2
    removed := diffRemovedLoop (remoteFiles.map fun f => (f.path, f.sha)) metadataFiles
    remoteFileCount := remoteFiles.length }

/-- `diffGitHubSkillMetadata`: relativize and sort the remote listing, then
classify — remote path absent locally → `added`; present with a different
hash → `modified`; local path absent remotely → `removed`;
`updateAvailable` iff any list is non-empty.  (`toRelativeSkillPath` may
throw, hence the `Except`.) -/
def diffGitHubSkillMetadata (skillName : String) (metadata : GitHubSkillSourceMetadata)
    (target : GitHubRepoTarget) (remoteBundleFiles : List GitHubSkillSourceFile) :
    Except String GitHubSkillUpdateCheckResult :=
  match remoteBundleFiles.mapM (fun f =>
    (toRelativeSkillPath target.path f.path).map
      (fun rel => (⟨rel, f.sha⟩ : GitHubSkillSourceFile))) with
  | .error e => .error e
  | .ok mapped => .ok (diffCore skillName metadata.files (sortSourceFiles mapped))

/-- `checkGitHubSkillUpdate`: read the stored metadata (fail when the skill is
not GitHub-installed), re-fetch a hash-only snapshot of the same target, fail
when the remote name changed, then diff. -/
def checkGitHubSkillUpdate (env : RemoteEnv) (fuel : Nat) (store : LocalStore)
    (skillName : String) : Except String GitHubSkillUpdateCheckResult :=
  match readGitHubSkillSourceMetadata store skillName with
  | none => .error (cat "Skill is not GitHub-installed: " skillName)
  | some metadata => do
    let target : GitHubRepoTarget :=
      { owner := metadata.owner
        repo := metadata.repo
        ref := metadata.ref
        path := metadata.path
        originalUrl := metadata.originalUrl }
    let snapshot ← fetchGitHubSkillSnapshot env fuel target
    if snapshot.skillName ≠ skillName then
      .error (cat "Remote skill name changed from "
        (cat skillName (cat " to " snapshot.skillName)))
    else diffGitHubSkillMetadata skillName metadata target snapshot.files

/-- The local-drift classification. -/
structure GitHubSkillLocalChanges where
  modified : List String
  missing : List String
  untracked : List String
  deriving Repr, DecidableEq

/-- The metadata loop of `detectLocalGitHubSkillChanges`, producing
`(modified, missing)` in metadata order: a recorded file absent from the
local set is `missing`; a present one is rehashed and `modified` on
mismatch. -/
def detectLoop (store : LocalStore) (skillName : String) (localSet : List String) :
    List GitHubSkillSourceFile → Except String (List String × List String)
  | [] => .ok ([], [])
  | f :: rest =>
    if localSet.contains f.path then do
      let bytes ← readUserSkillFileBytes store skillName f.path
      let localSha := computeGitBlobSha bytes
      let (m, mi) ← detectLoop store skillName localSet rest
      pure (if localSha ≠ f.sha then (f.path :: m, mi) else (m, mi))
    else do
      let (m, mi) ← detectLoop store skillName localSet rest
      pure (m, f.path :: mi)

/-- `detectLocalGitHubSkillChanges`: list the local files (the reserved
sidecar excluded, sorted), classify the recorded files as missing/modified,
and the local files not in the metadata map as untracked. -/
def detectLocalGitHubSkillChanges (store : LocalStore) (skillName : String)
    (metadata : GitHubSkillSourceMetadata) : Except String GitHubSkillLocalChanges := do
  let (_, dir) ← getUserSkillDir store skillName false
  let localEntries := listSkillFiles dir
  let localRelevant := sortStrings (localEntries.filter (fun p => p ≠ sourceMetadataFilename))
  let (modified, missing) ← detectLoop store skillName localRelevant metadata.files
  let metadataPaths := metadata.files.map (fun f => f.path)
  let untracked := localRelevant.filter (fun p => !(metadataPaths.contains p))
  pure { modified, missing, untracked }

/-- The force-update preview. -/
structure GitHubSkillForceUpdatePreview where
  skillName : String
  localChanges : GitHubSkillLocalChanges
  hasLocalChanges : Bool
  deriving Repr, DecidableEq

/-- `previewGitHubSkillForceUpdate`: read metadata (fail when not
GitHub-installed), detect local changes, flag whether any exist. -/
def previewGitHubSkillForceUpdate (store : LocalStore) (skillName : String) :
    Except String GitHubSkillForceUpdatePreview :=
  match readGitHubSkillSourceMetadata store skillName with
  | none => .error (cat "Skill is not GitHub-installed: " skillName)
  | some metadata => do
    let localChanges ← detectLocalGitHubSkillChanges store skillName metadata
    pure
      { skillName
        localChanges
        hasLocalChanges :=
          !localChanges.modified.isEmpty ||
          !localChanges.missing.isEmpty ||
          !localChanges.untracked.isEmpty }

/-- The force-update result: the diff plus the written file count. -/
structure GitHubSkillForceUpdateResult where
  check : GitHubSkillUpdateCheckResult
  fileCount : Nat
  deriving Repr, DecidableEq

/-- `forceUpdateGitHubSkill`: re-fetch the full bundle, fail on a name change,
compute the diff for reporting, delete the whole local namespace, rewrite all
fetched files and fresh metadata. -/
def forceUpdateGitHubSkill (env : RemoteEnv) (fuel : Nat) (store : LocalStore)
    (skillName : String) : LocalStore × Except String GitHubSkillForceUpdateResult :=
  match readGitHubSkillSourceMetadata store skillName with
  | none => (store, .error (cat "Skill is not GitHub-installed: " skillName))
  | some metadata =>
    let target : GitHubRepoTarget :=
      { owner := metadata.owner
        repo := metadata.repo
        ref := metadata.ref
        path := metadata.path
        originalUrl := metadata.originalUrl }
    match fetchGitHubSkillBundle env fuel target with
    | .error e => (store, .error e)
    | .ok bundle =>
      if bundle.skillName ≠ skillName then
        (store, .error (cat "Remote skill name changed from "
          (cat skillName (cat " to " bundle.skillName))))
      else
        match diffGitHubSkillMetadata skillName metadata target
            (bundle.files.map (fun f => (⟨f.path, f.sha⟩ : GitHubSkillSourceFile))) with
        | .error e => (store, .error e)
        | .ok diff =>
          match deleteUserSkill store skillName with
          | .error e => (store, .error e)
          | .ok store1 =>
            match getUserSkillDir store1 skillName true with
            | .error e => (store1, .error e)
            | .ok (store2, dir) =>
              match writeGitHubSkillBundle dir target.path bundle.files with
              | (dir2, some e) => (setSkillDir store2 skillName dir2, .error e)
              | (dir2, none) =>
                match bundle.files.mapM (fun f =>
                  (toRelativeSkillPath target.path f.path).map
                    (fun rel => (⟨rel, f.sha⟩ : GitHubSkillSourceFile))) with
                | .error e => (setSkillDir store2 skillName dir2, .error e)
                | .ok metadataFiles =>
                  let nextMetadata : GitHubSkillSourceMetadata :=
                    { owner := target.owner
                      repo := target.repo
                      ref := target.ref
                      path := target.path
                      originalUrl := target.originalUrl
                      installedAt := env.now
                      files := metadataFiles }
                  (setSkillDir store2 skillName (writeSkillMetadataFile dir2 nextMetadata),
                   .ok { check := diff, fileCount := bundle.files.length })

/-! ## The target resolver (`parseGitHubSkillUrl`)

The WHATWG `new URL(rawUrl.trim())` constructor is a platform primitive; it
is modelled as an oracle argument: `none` when the constructor throws,
otherwise the parsed `{hostname, pathname, href}` (with `href` the
`url.toString()` serialization).  `fetchGitHubDefaultBranch` is one remote
repository-metadata request, likewise passed as an oracle outcome. -/

/-- The fields of a parsed WHATWG URL read by the resolver. -/
structure ParsedUrl where
  hostname : String
  pathname : String
  href : String
  deriving Repr, DecidableEq

/-- `parseGitHubSkillUrl`: accept `https://github.com/owner/repo` (default
branch, empty path) and `…/owner/repo/tree/<ref>[/<path…>]`; reject any other
host, shape, or malformed URL. -/
def parseGitHubSkillUrl (parsedUrl : Option ParsedUrl)
    (defaultBranch : Except String String) : Except String GitHubRepoTarget :=
  match parsedUrl with
  | none => .error "Enter a valid GitHub URL"
  | some url =>
    if url.hostname ≠ "github.com" ∧ url.hostname ≠ "www.github.com" then
      .error "Only github.com URLs are supported"
    else
      match pathSegments url.pathname with
      | owner :: repo :: restAll =>
        if owner = "" ∨ repo = "" then
          .error "Use a GitHub repo URL like https://github.com/owner/repo or a directory URL"
        else
          match restAll with
          | [] =>
            defaultBranch.map (fun ref =>
              { owner, repo, ref, path := "", originalUrl := url.href })
          | third :: rest4 =>
            if third ≠ "tree" then
              .error "Use a GitHub repo URL like https://github.com/owner/repo or a directory URL"
            else
              match rest4 with
              | [] =>
                .error "Use a GitHub repo URL like https://github.com/owner/repo or a directory URL"
              | fourth :: rest =>
                .ok { owner, repo, ref := fourth, path := joinSegments rest,
                      originalUrl := url.href }
      | _ => .error "Use a GitHub repo URL like https://github.com/owner/repo or a directory URL"

/-! ## Generic lemmas about the comparison and sorting helpers -/

theorem charListLe_total : ∀ as bs : List Char, charListLe as bs = true ∨ charListLe bs as = true := by
  intro as
  induction as with
  | nil => intro bs; left; rfl
  | cons a as ih =>
    intro bs
    cases bs with
    | nil => right; rfl
    | cons b bs =>
      simp only [charListLe]
      rcases Nat.lt_trichotomy a.toNat b.toNat with h | h | h
      · left; simp [h]
      · have h1 : ¬ a.toNat < b.toNat := by omega
        have h2 : ¬ b.toNat < a.toNat := by omega
        simpa [h1, h2] using ih bs
      · right; simp [h]

theorem charListLe_trans : ∀ as bs cs : List Char,
    charListLe as bs = true → charListLe bs cs = true → charListLe as cs = true := by
  intro as
  induction as with
  | nil => intro bs cs _ _; rfl
  | cons a as ih =>
    intro bs cs h1 h2
    cases bs with
    | nil => simp [charListLe] at h1
    | cons b bs =>
      cases cs with
      | nil => simp [charListLe] at h2
      | cons c cs =>
        simp only [charListLe] at h1 h2 ⊢
        split_ifs at h1 h2 ⊢ <;>
          first
          | rfl
          | omega
          | simp at h1
          | simp at h2
          | exact ih bs cs h1 h2

instance strLeBTotal : IsTotal String (fun a b => strLeB a b = true) :=
  ⟨fun a b => charListLe_total a.data b.data⟩

instance strLeBTrans : IsTrans String (fun a b => strLeB a b = true) :=
  ⟨fun a b c => charListLe_trans a.data b.data c.data⟩

theorem mem_sortStrings {s : String} {l : List String} :
    s ∈ sortStrings l ↔ s ∈ l :=
  (List.perm_insertionSort _ l).mem_iff

theorem mem_sortSourceFiles {f : GitHubSkillSourceFile} {l : List GitHubSkillSourceFile} :
    f ∈ sortSourceFiles l ↔ f ∈ l :=
  (List.perm_insertionSort _ l).mem_iff

theorem mem_sortDiscovered {s : GitHubDiscoveredSkill} {l : List GitHubDiscoveredSkill} :
    s ∈ sortDiscovered l ↔ s ∈ l :=
  (List.perm_insertionSort _ l).mem_iff

/-! ## Claim C7: the content identity hash -/

theorem sha1_length (msg : List Nat) : (sha1 msg).length = 20 := by
  simp [sha1, wordBytes]

theorem wordBytes_lt (w : Nat) : ∀ b ∈ wordBytes w, b < 256 := by
  intro b hb
  simp only [wordBytes, List.mem_cons, List.not_mem_nil, or_false] at hb
  rcases hb with h | h | h | h <;> (rw [h]; exact Nat.mod_lt _ (by norm_num))

theorem sha1_bytes_lt (msg : List Nat) : ∀ b ∈ sha1 msg, b < 256 := by
  intro b hb
  have hb' : b ∈ (((wordBytes (sha1Blocks sha1Init (bytesToWords (sha1Pad msg))).a ++
      wordBytes (sha1Blocks sha1Init (bytesToWords (sha1Pad msg))).b) ++
        wordBytes (sha1Blocks sha1Init (bytesToWords (sha1Pad msg))).c) ++
          wordBytes (sha1Blocks sha1Init (bytesToWords (sha1Pad msg))).d) ++
            wordBytes (sha1Blocks sha1Init (bytesToWords (sha1Pad msg))).e := hb
  rcases List.mem_append.mp hb' with h' | h
  rotate_left
  · exact wordBytes_lt _ b h
  rcases List.mem_append.mp h' with h' | h
  rotate_left
  · exact wordBytes_lt _ b h
  rcases List.mem_append.mp h' with h' | h
  rotate_left
  · exact wordBytes_lt _ b h
  rcases List.mem_append.mp h' with h | h
  · exact wordBytes_lt _ b h
  · exact wordBytes_lt _ b h

theorem hexDigit_mem (k : Nat) (hk : k < 16) : hexDigit k ∈ ("0123456789abcdef").data := by
  interval_cases k <;> decide

theorem byteHex_mem {b : Nat} (hb : b < 256) :
    ∀ c ∈ byteHex b, c ∈ ("0123456789abcdef").data := by
  intro c hc
  simp only [byteHex, List.mem_cons, List.not_mem_nil, or_false] at hc
  rcases hc with h | h <;> subst h
  · exact hexDigit_mem _ (by omega)
  · exact hexDigit_mem _ (Nat.mod_lt _ (by norm_num))

theorem bytesToHex_length (bs : List Nat) : (bytesToHex bs).data.length = 2 * bs.length := by
  induction bs with
  | nil => rfl
  | cons b rest ih =>
    simp only [bytesToHex] at ih ⊢
    simp [List.flatMap_cons, byteHex] at ih ⊢
    omega

/-- C7.  `computeGitBlobSha` is the fixed secure digest (SHA-1, here embedded
from FIPS 180 and pinned by known test vectors) of the length-prefixed input
`"blob " + decimal byte length + NUL + bytes`, rendered as 40 lowercase
hexadecimal characters, and it is deterministic: equal byte sequences hash
equally.  The vectors are the well-known git object hashes of the empty blob
and of the blob `"test\n"`, and the FIPS vector `sha1("abc")`. -/
theorem C7_computeGitBlobSha_spec :
    (∀ bytes : List Nat,
      computeGitBlobSha bytes =
        bytesToHex (sha1 (asciiBytes (cat "blob " ⟨Nat.toDigits 10 bytes.length⟩) ++ 0 :: bytes))) ∧
    (∀ b1 b2 : List Nat, b1 = b2 → computeGitBlobSha b1 = computeGitBlobSha b2) ∧
    (∀ bytes : List Nat, (computeGitBlobSha bytes).data.length = 40) ∧
    (∀ bytes : List Nat, ∀ c ∈ (computeGitBlobSha bytes).data, c ∈ ("0123456789abcdef").data) ∧
    computeGitBlobSha [] = "e69de29bb2d1d6434b8b29ae775ad8c2e48c5391" ∧
    computeGitBlobSha (asciiBytes "test\n") = "9daeafb9864cf43055ae93beb0afd6c7d144bfa4" ∧
    bytesToHex (sha1 (asciiBytes "abc")) = "a9993e364706816aba3e25717850c26c9cd0d89d" := by
  refine ⟨fun bytes => rfl, fun b1 b2 h => by rw [h], fun bytes => ?_, fun bytes c hc => ?_,
    by decide, by decide, by decide⟩
  · rw [show computeGitBlobSha bytes = bytesToHex (sha1 (gitBlobPayload bytes)) from rfl,
      bytesToHex_length, sha1_length]
  · rw [show computeGitBlobSha bytes = bytesToHex (sha1 (gitBlobPayload bytes)) from rfl] at hc
    simp only [bytesToHex, List.mem_flatMap] at hc
    obtain ⟨b, hb, hcb⟩ := hc
    exact byteHex_mem (sha1_bytes_lt _ b hb) c hcb

/-- Witness for C7: the determinism conjunct applied at the empty byte
sequence, together with the pinned empty-blob vector. -/
theorem C7_witness :
    computeGitBlobSha [] = computeGitBlobSha [] ∧
    computeGitBlobSha [] = "e69de29bb2d1d6434b8b29ae775ad8c2e48c5391" :=
  ⟨C7_computeGitBlobSha_spec.2.1 [] [] rfl, C7_computeGitBlobSha_spec.2.2.2.2.1⟩

/-! ## Claim C5: accepted URL shapes -/

theorem pathSegments_ne_empty (s : String) : ∀ x ∈ pathSegments s, x ≠ "" := by
  intro x hx
  have := (List.mem_filter.mp hx).2
  exact of_decide_eq_true this

/-- C5 counterexample.  The claim asserts that the tree shape requires a
non-empty subpath, so `https://github.com/owner/repo/tree/main` (neither a
bare repository URL nor a tree URL with a subpath) would have to fail; the
resolver in fact accepts it, with the explicit ref and an empty path — the
default-branch lookup is not even consulted. -/
theorem C5_counterexample :
    parseGitHubSkillUrl
      (some ⟨"github.com", "/owner/repo/tree/main", "https://github.com/owner/repo/tree/main"⟩)
      (.error "default branch oracle unused") =
    .ok { owner := "owner", repo := "repo", ref := "main", path := "",
          originalUrl := "https://github.com/owner/repo/tree/main" } := by
  decide

/-- C5 (amended).  Target resolution is characterized exactly: a malformed URL
fails; a wrong host fails; `https://host/owner/repo` resolves through the
default-branch lookup to an empty path (failing iff that lookup fails);
`https://host/owner/repo/tree/<ref>[/<path…>]` resolves to the explicit ref
and the (possibly empty) joined subpath; every other segment shape fails with
the validation error. -/
theorem C5_parseGitHubSkillUrl_spec :
    (∀ b, parseGitHubSkillUrl none b = .error "Enter a valid GitHub URL") ∧
    (∀ (u : ParsedUrl) b, u.hostname ≠ "github.com" → u.hostname ≠ "www.github.com" →
      parseGitHubSkillUrl (some u) b = .error "Only github.com URLs are supported") ∧
    (∀ (u : ParsedUrl) b o r,
      (u.hostname = "github.com" ∨ u.hostname = "www.github.com") →
      pathSegments u.pathname = [o, r] →
      parseGitHubSkillUrl (some u) b =
        b.map (fun ref => { owner := o, repo := r, ref, path := "", originalUrl := u.href })) ∧
    (∀ (u : ParsedUrl) b o r ref rest,
      (u.hostname = "github.com" ∨ u.hostname = "www.github.com") →
      pathSegments u.pathname = o :: r :: "tree" :: ref :: rest →
      parseGitHubSkillUrl (some u) b =
        .ok { owner := o, repo := r, ref, path := joinSegments rest, originalUrl := u.href }) ∧
    (∀ (u : ParsedUrl) b,
      (u.hostname = "github.com" ∨ u.hostname = "www.github.com") →
      (pathSegments u.pathname).length < 2 →
      parseGitHubSkillUrl (some u) b =
        .error "Use a GitHub repo URL like https://github.com/owner/repo or a directory URL") ∧
    (∀ (u : ParsedUrl) b o r third rest,
      (u.hostname = "github.com" ∨ u.hostname = "www.github.com") →
      third ≠ "tree" →
      pathSegments u.pathname = o :: r :: third :: rest →
      parseGitHubSkillUrl (some u) b =
        .error "Use a GitHub repo URL like https://github.com/owner/repo or a directory URL") ∧
    (∀ (u : ParsedUrl) b o r,
      (u.hostname = "github.com" ∨ u.hostname = "www.github.com") →
      pathSegments u.pathname = [o, r, "tree"] →
      parseGitHubSkillUrl (some u) b =
        .error "Use a GitHub repo URL like https://github.com/owner/repo or a directory URL") := by
  have hostCond : ∀ u : ParsedUrl,
      (u.hostname = "github.com" ∨ u.hostname = "www.github.com") →
      ¬(u.hostname ≠ "github.com" ∧ u.hostname ≠ "www.github.com") := by
    intro u h
    rcases h with h | h <;> simp [h]
  refine ⟨fun b => rfl, ?_, ?_, ?_, ?_, ?_, ?_⟩
  · intro u b h1 h2
    simp [parseGitHubSkillUrl, h1, h2]
  · intro u b o r hhost hsegs
    have ho : o ≠ "" := pathSegments_ne_empty u.pathname o (by rw [hsegs]; simp)
    have hr : r ≠ "" := pathSegments_ne_empty u.pathname r (by rw [hsegs]; simp)
    simp [parseGitHubSkillUrl, hostCond u hhost, hsegs, ho, hr]
  · intro u b o r ref rest hhost hsegs
    have ho : o ≠ "" := pathSegments_ne_empty u.pathname o (by rw [hsegs]; simp)
    have hr : r ≠ "" := pathSegments_ne_empty u.pathname r (by rw [hsegs]; simp)
    simp [parseGitHubSkillUrl, hostCond u hhost, hsegs, ho, hr]
  · intro u b hhost hlen
    match hsegs : pathSegments u.pathname with
    | [] => simp [parseGitHubSkillUrl, hostCond u hhost, hsegs]
    | [x] => simp [parseGitHubSkillUrl, hostCond u hhost, hsegs]
    | x :: y :: rest =>
      rw [hsegs] at hlen
      simp only [List.length_cons] at hlen
      omega
  · intro u b o r third rest hhost hthird hsegs
    have ho : o ≠ "" := pathSegments_ne_empty u.pathname o (by rw [hsegs]; simp)
    have hr : r ≠ "" := pathSegments_ne_empty u.pathname r (by rw [hsegs]; simp)
    simp [parseGitHubSkillUrl, hostCond u hhost, hsegs, ho, hr, hthird]
  · intro u b o r hhost hsegs
    have ho : o ≠ "" := pathSegments_ne_empty u.pathname o (by rw [hsegs]; simp)
    have hr : r ≠ "" := pathSegments_ne_empty u.pathname r (by rw [hsegs]; simp)
    simp [parseGitHubSkillUrl, hostCond u hhost, hsegs, ho, hr]

/-- Witness for C5: the amended characterization applied at concrete URLs —
a bare repository URL with a successful default-branch lookup, a tree URL
with a non-empty subpath, and a wrong-host URL. -/
theorem C5_witness :
    parseGitHubSkillUrl (some ⟨"github.com", "/o/r", "h1"⟩) (.ok "main") =
      .ok { owner := "o", repo := "r", ref := "main", path := "", originalUrl := "h1" } ∧
    parseGitHubSkillUrl (some ⟨"github.com", "/o/r/tree/dev/sub/dir", "h2"⟩) (.error "x") =
      .ok { owner := "o", repo := "r", ref := "dev", path := "sub/dir", originalUrl := "h2" } ∧
    parseGitHubSkillUrl (some ⟨"gitlab.com", "/o/r", "h3"⟩) (.ok "main") =
      .error "Only github.com URLs are supported" :=
  ⟨(C5_parseGitHubSkillUrl_spec.2.2.1 ⟨"github.com", "/o/r", "h1"⟩ (.ok "main") "o" "r"
      (Or.inl rfl) (by decide)).trans (by decide),
   (C5_parseGitHubSkillUrl_spec.2.2.2.1 ⟨"github.com", "/o/r/tree/dev/sub/dir", "h2"⟩
      (.error "x") "o" "r" "dev" ["sub", "dir"] (Or.inl rfl) (by decide)).trans (by decide),
   C5_parseGitHubSkillUrl_spec.2.1 ⟨"gitlab.com", "/o/r", "h3"⟩ (.ok "main")
      (by decide) (by decide)⟩

/-! ## Claim C9: the manifest header parser -/

theorem munchName_shape : ∀ (cs : List Char) (mode : Bool) (p : List Char × List Char),
    munchName mode cs = some p → nameShapeAux mode p.1 = true := by
  intro cs
  induction cs with
  | nil =>
    intro mode p h
    cases mode with
    | true => simp [munchName] at h
    | false =>
      simp only [munchName] at h
      cases h
      rfl
  | cons c rest ih =>
    intro mode p h
    cases mode with
    | true =>
      simp only [munchName] at h
      by_cases hc : isLowerAlnum c
      · rw [if_pos hc] at h
        obtain ⟨q, hq, heq⟩ := Option.map_eq_some'.mp h
        cases heq
        simp only [nameShapeAux, hc, Bool.true_and]
        exact ih false q hq
      · rw [if_neg hc] at h
        cases h
    | false =>
      simp only [munchName] at h
      by_cases hc : isLowerAlnum c
      · rw [if_pos hc] at h
        obtain ⟨q, hq, heq⟩ := Option.map_eq_some'.mp h
        cases heq
        simp only [nameShapeAux, hc, if_true]
        exact ih false q hq
      · rw [if_neg hc] at h
        by_cases hdash : c = '-'
        · rw [if_pos hdash] at h
          cases hm : munchName true rest with
          | some q =>
            rw [hm] at h
            cases h
            exact ih true q hm
          | none =>
            rw [hm] at h
            cases h
            rfl
        · rw [if_neg hdash] at h
          cases h
          rfl

theorem closeQuoteName_eq (nm0 r nm : List Char) :
    closeQuoteName nm0 r = some nm → nm = nm0 := by
  unfold closeQuoteName
  split
  next r2 =>
    intro h
    by_cases hend : lineEndB r2 = true
    · rw [if_pos hend] at h
      cases h
      rfl
    · rw [if_neg hend] at h
      cases h
  next =>
    intro h
    cases h

theorem closePlainName_eq (nm0 r nm : List Char) :
    closePlainName nm0 r = some nm → nm = nm0 := by
  unfold closePlainName
  intro h
  by_cases hend : lineEndB r = true
  · rw [if_pos hend] at h
    cases h
    rfl
  · rw [if_neg hend] at h
    cases h

theorem matchNameAt_shape (cs nm : List Char) :
    matchNameAt cs = some nm → nameShapeAux true nm = true := by
  intro h
  unfold matchNameAt at h
  split at h
  case h_2 => cases h
  case h_1 rest =>
    split at h
    case h_1 rest3 heq1 =>
      cases hm : munchName true rest3 with
      | some q =>
        rw [hm] at h
        obtain ⟨qnm, qr⟩ := q
        cases closeQuoteName_eq qnm qr nm h
        exact munchName_shape rest3 true _ hm
      | none => rw [hm] at h; cases h
    case h_2 =>
      cases hm : munchName true (rest.dropWhile isRegexSpace) with
      | some q =>
        rw [hm] at h
        obtain ⟨qnm, qr⟩ := q
        cases closePlainName_eq qnm qr nm h
        exact munchName_shape _ true _ hm
      | none => rw [hm] at h; cases h

theorem findName_shape : ∀ (cs : List Char) (anchored : Bool) (nm : List Char),
    findName cs anchored = some nm → nameShapeAux true nm = true := by
  intro cs
  induction cs with
  | nil => intro a nm h; simp [findName] at h
  | cons c rest ih =>
    intro a nm h
    simp only [findName] at h
    cases ha : (if a then matchNameAt (c :: rest) else none) with
    | some nm' =>
      rw [ha] at h
      cases h
      by_cases haa : a
      · rw [if_pos haa] at ha
        exact matchNameAt_shape _ _ ha
      · rw [if_neg haa] at ha
        cases ha
    | none =>
      rw [ha] at h
      exact ih _ _ h

theorem parseSkillFrontmatter_name_shape (md : String) (fm : ParsedSkillFrontmatter) :
    parseSkillFrontmatter md = .ok fm → skillNameShape fm.name = true := by
  intro h
  unfold parseSkillFrontmatter at h
  split at h
  · cases h
  case h_2 content heq =>
    split at h
    · cases h
    case h_2 nm hnm =>
      split at h <;> (cases h; exact findName_shape content true nm hnm)

theorem validateSkillName_none_iff (n : String) :
    validateSkillName n = none ↔
      (jsTrim n ≠ "" ∧ (jsTrim n).data.length ≤ 64 ∧ skillNameShape (jsTrim n) = true) := by
  unfold validateSkillName
  split_ifs with h1 h2 h3
  · exact iff_of_false (by simp) (by intro hc; exact hc.1 h1)
  · exact iff_of_false (by simp) (by intro hc; omega)
  · refine iff_of_false (by simp) (by intro hc; rw [hc.2.2] at h3; simp at h3)
  · exact iff_of_true rfl ⟨h1, by omega, by simpa using h3⟩

/-- C9 counterexample.  The claim requires a description field of 1–1024
characters and says a manifest whose header lacks one is rejected; the parser
in fact accepts a header with only a `name` field, defaulting the description
to the empty string. -/
theorem C9_counterexample :
    parseSkillFrontmatter "---\nname: my-skill\n---\nbody" =
      .ok { name := "my-skill", description := "" } := by
  decide

/-- C9 (amended).  The header parser accepts a manifest only when it begins
with the delimited header block and that block declares a `name` field whose
value matches `[a-z0-9]+(-[a-z0-9]+)*` — with no length bound in the parser
itself (the 1–64 bound is enforced separately by `validateSkillName`, which
accepts exactly the names of that shape with 1–64 characters).  The
`description` field is optional and unbounded: a header lacking one is
accepted with an empty description.  Conjuncts: every accepted manifest has a
shape-valid name; the `validateSkillName` characterization; a description-less
manifest is accepted with description `""`; a name-less header and a missing
header block are rejected; a 65-character name passes the parser but fails
`validateSkillName`. -/
theorem C9_parseSkillFrontmatter_spec :
    (∀ (md : String) (fm : ParsedSkillFrontmatter),
      parseSkillFrontmatter md = .ok fm → skillNameShape fm.name = true) ∧
    (∀ n : String, validateSkillName n = none ↔
      (jsTrim n ≠ "" ∧ (jsTrim n).data.length ≤ 64 ∧ skillNameShape (jsTrim n) = true)) ∧
    parseSkillFrontmatter "---\nname: my-skill\n---\nbody" =
      .ok { name := "my-skill", description := "" } ∧
    parseSkillFrontmatter "---\ntitle: x\ndescription: d\n---\nbody" =
      .error "SKILL.md frontmatter must define name" ∧
    parseSkillFrontmatter "Just a body, no header" =
      .error "SKILL.md must start with YAML frontmatter" ∧
    parseSkillFrontmatter
      "---\nname: aaaaaaaaaaaaaaaaaaaaaaaaaaaaaaaaaaaaaaaaaaaaaaaaaaaaaaaaaaaaaaaaa\n---\n" =
      .ok { name := "aaaaaaaaaaaaaaaaaaaaaaaaaaaaaaaaaaaaaaaaaaaaaaaaaaaaaaaaaaaaaaaaa",
            description := "" } ∧
    validateSkillName "aaaaaaaaaaaaaaaaaaaaaaaaaaaaaaaaaaaaaaaaaaaaaaaaaaaaaaaaaaaaaaaaa" =
      some "Name must be 64 characters or fewer" :=
  ⟨parseSkillFrontmatter_name_shape, validateSkillName_none_iff,
   by decide, by decide, by decide, by decide, by decide⟩

/-- Witness for C9: the name-shape conjunct applied to a concrete accepted
manifest, and the `validateSkillName` characterization applied at
`"my-skill"`. -/
theorem C9_witness :
    skillNameShape (ParsedSkillFrontmatter.name ⟨"my-skill", ""⟩) = true ∧
    validateSkillName "my-skill" = none :=
  ⟨C9_parseSkillFrontmatter_spec.1 "---\nname: my-skill\n---\nbody" ⟨"my-skill", ""⟩ (by decide),
   (C9_parseSkillFrontmatter_spec.2.1 "my-skill").mpr (by decide)⟩

/-! ## Claim C10: the path-containment guard -/

theorem dropWhile_head_false {α : Type} {p : α → Bool} :
    ∀ (l : List α) (x : α), (l.dropWhile p).head? = some x → p x = false := by
  intro l
  induction l with
  | nil => intro x h; simp [List.dropWhile] at h
  | cons a rest ih =>
    intro x h
    by_cases hp : p a
    · rw [List.dropWhile_cons_of_pos hp] at h
      exact ih x h
    · rw [List.dropWhile_cons_of_neg hp] at h
      cases h
      simpa using hp

theorem normalizeSkillPath_last_ne (s : String) :
    (normalizeSkillPath s).data.getLast? ≠ some '/' := by
  intro h
  rw [show (normalizeSkillPath s).data =
    (((s.data.map fun c => if c = '\\' then '/' else c).dropWhile
      (· = '/')).reverse.dropWhile (· = '/')).reverse from rfl] at h
  rw [List.getLast?_reverse] at h
  have := dropWhile_head_false _ _ h
  simp at this

theorem toRelativeSkillPath_ok (root full r : String) :
    toRelativeSkillPath root full = .ok r →
    (normalizeSkillPath root = "" ∧ r = normalizeSkillPath full) ∨
    ((normalizeSkillPath full).data = (normalizeSkillPath root).data ++ '/' :: r.data ∧
      r ≠ "") := by
  unfold toRelativeSkillPath
  split_ifs with h1 h2 h3
  · intro h
    cases h
    exact Or.inl ⟨h1, rfl⟩
  · intro h
    cases h
  · intro h
    cases h
    right
    obtain ⟨t, ht⟩ := List.isPrefixOf_iff_prefix.mp h3
    have hdata : (cat (normalizeSkillPath root) "/").data =
        (normalizeSkillPath root).data ++ ['/'] := rfl
    constructor
    · rw [show (⟨(normalizeSkillPath full).data.drop
          (cat (normalizeSkillPath root) "/").data.length⟩ : String).data =
          (normalizeSkillPath full).data.drop
            (cat (normalizeSkillPath root) "/").data.length from rfl]
      rw [← ht, List.drop_left, hdata, List.append_assoc]
      rfl
    · intro hr
      have hz : (normalizeSkillPath full).data.drop
          (cat (normalizeSkillPath root) "/").data.length = [] := by
        have : (⟨(normalizeSkillPath full).data.drop
            (cat (normalizeSkillPath root) "/").data.length⟩ : String) = "" := hr
        simpa using congrArg String.data this
      rw [← ht, List.drop_left] at hz
      rw [hz, List.append_nil, hdata] at ht
      exact normalizeSkillPath_last_ne full (by rw [← ht, List.getLast?_concat])
  · intro h
    cases h

theorem toRelativeSkillPath_error (root full : String)
    (hroot : normalizeSkillPath root ≠ "")
    (h : normalizeSkillPath full = normalizeSkillPath root ∨
      ¬ ((cat (normalizeSkillPath root) "/").data.isPrefixOf
          (normalizeSkillPath full).data = true)) :
    ∃ e, toRelativeSkillPath root full = .error e := by
  unfold toRelativeSkillPath
  split_ifs with h1 h2 h3
  · exact absurd h1 hroot
  · exact ⟨_, rfl⟩
  · rcases h with h | h
    · exact absurd h h2
    · exact absurd h3 h
  · exact ⟨_, rfl⟩

theorem writeGitHubSkillBundle_abort (tp : String) :
    ∀ (pre : List RemoteFile) (dir dir' : SkillDir) (post : List RemoteFile)
      (f : RemoteFile) (e : String),
    writeGitHubSkillBundle dir tp pre = (dir', none) →
    toRelativeSkillPath tp f.path = .error e →
    writeGitHubSkillBundle dir tp (pre ++ f :: post) = (dir', some e) := by
  intro pre
  induction pre with
  | nil =>
    intro dir dir' post f e hpre hrel
    obtain rfl : dir = dir' := by
      simpa [writeGitHubSkillBundle] using congrArg Prod.fst hpre
    simp only [List.nil_append, writeGitHubSkillBundle, hrel]
  | cons g rest ih =>
    intro dir dir' post f e hpre hrel
    simp only [List.cons_append, writeGitHubSkillBundle] at hpre ⊢
    cases hg : toRelativeSkillPath tp g.path with
    | error eg => simp only [hg] at hpre; simp at hpre
    | ok relg =>
      simp only [hg] at hpre ⊢
      cases hw : writeSkillFileBytes dir relg g.bytes with
      | error ew => simp only [hw] at hpre; simp at hpre
      | ok dir2 =>
        simp only [hw] at hpre ⊢
        exact ih dir2 dir' post f e hpre hrel

theorem writeGitHubSkillBundle_ok_rel (tp : String) :
    ∀ (files : List RemoteFile) (dir dir' : SkillDir),
    writeGitHubSkillBundle dir tp files = (dir', none) →
    ∀ f ∈ files, ∃ r, toRelativeSkillPath tp f.path = .ok r := by
  intro files
  induction files with
  | nil => intro dir dir' _ f hf; cases hf
  | cons g rest ih =>
    intro dir dir' h f hf
    simp only [writeGitHubSkillBundle] at h
    cases hg : toRelativeSkillPath tp g.path with
    | error eg => simp only [hg] at h; simp at h
    | ok relg =>
      simp only [hg] at h
      cases hw : writeSkillFileBytes dir relg g.bytes with
      | error ew => simp only [hw] at h; simp at h
      | ok dir2 =>
        simp only [hw] at h
        rcases List.mem_cons.mp hf with rfl | hf'
        · exact ⟨relg, hg⟩
        · exact ih dir2 dir' h f hf'

/-- C10.  The path-containment guard: (1) when the normalized target root is
non-empty, a fetched path that normalizes to the root itself, or that the
root-plus-slash string is not a prefix of, makes `toRelativeSkillPath` throw;
(2) every successfully computed relative path `r` witnesses prefix
containment — the normalized full path is exactly `root ++ "/" ++ r` with `r`
non-empty (or the root is empty and `r` is the whole normalized path);
(3) `writeGitHubSkillBundle` stops at the first file whose relative path
computation throws: the store state stays exactly what the earlier files
wrote, and neither that file nor any later file is written; (4) hence in a
bundle write that succeeds, every file passed the guard and its written
relative path sits strictly inside the unit's namespace in the sense of
(2). -/
theorem C10_containment_guard :
    (∀ root full : String, normalizeSkillPath root ≠ "" →
      (normalizeSkillPath full = normalizeSkillPath root ∨
        ¬((cat (normalizeSkillPath root) "/").data.isPrefixOf
            (normalizeSkillPath full).data = true)) →
      ∃ e, toRelativeSkillPath root full = .error e) ∧
    (∀ root full r : String, toRelativeSkillPath root full = .ok r →
      (normalizeSkillPath root = "" ∧ r = normalizeSkillPath full) ∨
      ((normalizeSkillPath full).data =
          (normalizeSkillPath root).data ++ '/' :: r.data ∧ r ≠ "")) ∧
    (∀ (tp : String) (pre : List RemoteFile) (dir dir' : SkillDir)
       (post : List RemoteFile) (f : RemoteFile) (e : String),
      writeGitHubSkillBundle dir tp pre = (dir', none) →
      toRelativeSkillPath tp f.path = .error e →
      writeGitHubSkillBundle dir tp (pre ++ f :: post) = (dir', some e)) ∧
    (∀ (tp : String) (files : List RemoteFile) (dir dir' : SkillDir),
      writeGitHubSkillBundle dir tp files = (dir', none) →
      ∀ f ∈ files, ∃ r, toRelativeSkillPath tp f.path = .ok r ∧
        ((normalizeSkillPath tp = "" ∧ r = normalizeSkillPath f.path) ∨
         ((normalizeSkillPath f.path).data =
             (normalizeSkillPath tp).data ++ '/' :: r.data ∧ r ≠ ""))) := by
  refine ⟨toRelativeSkillPath_error, toRelativeSkillPath_ok,
    fun tp pre => writeGitHubSkillBundle_abort tp pre, ?_⟩
  intro tp files dir dir' h f hf
  obtain ⟨r, hr⟩ := writeGitHubSkillBundle_ok_rel tp files dir dir' h f hf
  exact ⟨r, hr, toRelativeSkillPath_ok tp f.path r hr⟩

/-- Witness for C10: a two-file bundle whose second file lies outside the
target directory — the write stops after the first file with the
outside-the-directory error; and the guard theorem applied to the root-equal
and ok cases at concrete paths. -/
theorem C10_witness :
    writeGitHubSkillBundle [] "skills/foo"
      [⟨"skills/foo/SKILL.md", "s1", [1]⟩, ⟨"elsewhere/x", "s2", [2]⟩] =
      ([("SKILL.md", FileContent.bytesF [1])],
        some "File path is outside the requested skill directory: elsewhere/x") ∧
    (∃ e, toRelativeSkillPath "skills/foo" "skills/foo" = .error e) :=
  ⟨C10_containment_guard.2.2.1 "skills/foo" [⟨"skills/foo/SKILL.md", "s1", [1]⟩]
      [] [("SKILL.md", FileContent.bytesF [1])] []
      ⟨"elsewhere/x", "s2", [2]⟩
      "File path is outside the requested skill directory: elsewhere/x"
      (by decide) (by decide),
   C10_containment_guard.1 "skills/foo" "skills/foo" (by decide) (Or.inl rfl)⟩

/-! ## Claim C1: the update diff -/

theorem toRelativeSkillPath_empty_root (root p : String)
    (hroot : normalizeSkillPath root = "") :
    toRelativeSkillPath root p = .ok (normalizeSkillPath p) := by
  unfold toRelativeSkillPath
  rw [if_pos hroot]

theorem relMapM_id (root : String) (hroot : normalizeSkillPath root = "") :
    ∀ files : List GitHubSkillSourceFile,
    (∀ f ∈ files, normalizeSkillPath f.path = f.path) →
    files.mapM (fun f =>
      (toRelativeSkillPath root f.path).map
        (fun rel => (⟨rel, f.sha⟩ : GitHubSkillSourceFile))) = .ok files := by
  intro files
  induction files with
  | nil => intro _; rfl
  | cons f rest ih =>
    intro h
    rw [List.mapM_cons]
    have hf : (toRelativeSkillPath root f.path).map
        (fun rel => (⟨rel, f.sha⟩ : GitHubSkillSourceFile)) = .ok f := by
      rw [toRelativeSkillPath_empty_root root f.path hroot]
      rw [h f (List.mem_cons_self f rest)]
      rfl
    rw [hf, ih (fun g hg => h g (List.mem_cons_of_mem f hg))]
    rfl

theorem jsMapGet_eq_none (entries : List (String × String)) (k : String) :
    jsMapGet entries k = none ↔ k ∉ entries.map Prod.fst := by
  simp only [jsMapGet, Option.map_eq_none', List.find?_eq_none, List.mem_reverse,
    beq_iff_eq, List.mem_map]
  constructor
  · rintro h ⟨e, he, rfl⟩
    exact h e he rfl
  · rintro h e he rfl
    exact h ⟨e, he, rfl⟩

theorem keys_nodup_unique {α : Type} : ∀ (l : List (String × α)),
    (l.map Prod.fst).Nodup → ∀ k v v', (k, v) ∈ l → (k, v') ∈ l → v = v' := by
  intro l
  induction l with
  | nil => intro _ k v v' hv; cases hv
  | cons e rest ih =>
    intro hnd k v v' hv hv'
    rw [List.map_cons, List.nodup_cons] at hnd
    obtain ⟨hnd1, hnd2⟩ := hnd
    rcases List.mem_cons.mp hv with heq | hv1
    · rcases List.mem_cons.mp hv' with heq' | hv'1
      · have hkv : (k, v) = (k, v') := heq.trans heq'.symm
        exact (Prod.ext_iff.mp hkv).2
      · have hk : k ∈ List.map Prod.fst rest := List.mem_map.mpr ⟨(k, v'), hv'1, rfl⟩
        rw [show k = e.1 from congrArg Prod.fst heq] at hk
        exact absurd hk hnd1
    · rcases List.mem_cons.mp hv' with heq' | hv'1
      · have hk : k ∈ List.map Prod.fst rest := List.mem_map.mpr ⟨(k, v), hv1, rfl⟩
        rw [show k = e.1 from congrArg Prod.fst heq'] at hk
        exact absurd hk hnd1
      · exact ih hnd2 k v v' hv1 hv'1

theorem jsMapGet_eq_some (entries : List (String × String)) (k v : String) :
    jsMapGet entries k = some v → (k, v) ∈ entries := by
  intro h
  simp only [jsMapGet, Option.map_eq_some'] at h
  obtain ⟨e, hfind, rfl⟩ := h
  have he := List.mem_reverse.mp (List.mem_of_find?_eq_some hfind)
  have hk : e.1 = k := by simpa using List.find?_some hfind
  rw [show (k, e.2) = e from by rw [← hk]]
  exact he

theorem jsMapGet_some_of_mem (entries : List (String × String))
    (hnd : (entries.map Prod.fst).Nodup) (k v : String) (hmem : (k, v) ∈ entries) :
    jsMapGet entries k = some v := by
  cases hg : jsMapGet entries k with
  | none =>
    exact absurd (List.mem_map.mpr ⟨(k, v), hmem, rfl⟩) ((jsMapGet_eq_none entries k).mp hg)
  | some v' =>
    rw [keys_nodup_unique entries hnd k v' v (jsMapGet_eq_some entries k v' hg) hmem]

theorem diffRemoteLoop_added_mem (localByPath : List (String × String))
    (files : List GitHubSkillSourceFile) (p : String) :
    p ∈ (diffRemoteLoop localByPath files).1 ↔
      ∃ f ∈ files, f.path = p ∧
        (jsMapGet localByPath f.path = none ∨ jsMapGet localByPath f.path = some "") := by
  induction files with
  | nil => simp [diffRemoteLoop]
  | cons f rest ih =>
    cases hg : jsMapGet localByPath f.path with
    | none =>
      simp only [diffRemoteLoop, hg, List.mem_cons, ih]
      constructor
      · rintro (rfl | ⟨g, hg', hp, hfal⟩)
        · exact ⟨f, Or.inl rfl, rfl, Or.inl hg⟩
        · exact ⟨g, Or.inr hg', hp, hfal⟩
      · rintro ⟨g, (rfl | hg'), hp, hfal⟩
        · exact Or.inl hp.symm
        · exact Or.inr ⟨g, hg', hp, hfal⟩
    | some s =>
      simp only [diffRemoteLoop, hg]
      by_cases hs : s = ""
      · subst hs
        rw [if_pos rfl]
        simp only [List.mem_cons, ih]
        constructor
        · rintro (rfl | ⟨g, hg', hp, hfal⟩)
          · exact ⟨f, Or.inl rfl, rfl, Or.inr hg⟩
          · exact ⟨g, Or.inr hg', hp, hfal⟩
        · rintro ⟨g, (rfl | hg'), hp, hfal⟩
          · exact Or.inl hp.symm
          · exact Or.inr ⟨g, hg', hp, hfal⟩
      · rw [if_neg hs]
        by_cases hne : s ≠ f.sha
        · rw [if_pos hne]
          simp only [ih]
          constructor
          · rintro ⟨g, hg', hp, hfal⟩
            exact ⟨g, List.mem_cons_of_mem f hg', hp, hfal⟩
          · rintro ⟨g, hgm, hp, hfal⟩
            rcases List.mem_cons.mp hgm with rfl | hg'
            · rw [hg] at hfal
              rcases hfal with h | h
              · cases h
              · cases h; exact absurd rfl hs
            · exact ⟨g, hg', hp, hfal⟩
        · rw [if_neg hne]
          simp only [ih]
          constructor
          · rintro ⟨g, hg', hp, hfal⟩
            exact ⟨g, List.mem_cons_of_mem f hg', hp, hfal⟩
          · rintro ⟨g, hgm, hp, hfal⟩
            rcases List.mem_cons.mp hgm with rfl | hg'
            · rw [hg] at hfal
              rcases hfal with h | h
              · cases h
              · cases h; exact absurd rfl hs
            · exact ⟨g, hg', hp, hfal⟩

theorem diffRemoteLoop_modified_mem (localByPath : List (String × String))
    (files : List GitHubSkillSourceFile) (p : String) :
    p ∈ (diffRemoteLoop localByPath files).2 ↔
      ∃ f ∈ files, f.path = p ∧
        ∃ s, jsMapGet localByPath f.path = some s ∧ s ≠ "" ∧ s ≠ f.sha := by
  induction files with
  | nil => simp [diffRemoteLoop]
  | cons f rest ih =>
    cases hg : jsMapGet localByPath f.path with
    | none =>
      simp only [diffRemoteLoop, hg, ih]
      constructor
      · rintro ⟨g, hg', hp, hs⟩
        exact ⟨g, List.mem_cons_of_mem f hg', hp, hs⟩
      · rintro ⟨g, hgm, hp, s, hgs, hs1, hs2⟩
        rcases List.mem_cons.mp hgm with rfl | hg'
        · rw [hg] at hgs; cases hgs
        · exact ⟨g, hg', hp, s, hgs, hs1, hs2⟩
    | some s =>
      simp only [diffRemoteLoop, hg]
      by_cases hs : s = ""
      · subst hs
        rw [if_pos rfl]
        simp only [ih]
        constructor
        · rintro ⟨g, hg', hp, hsx⟩
          exact ⟨g, List.mem_cons_of_mem f hg', hp, hsx⟩
        · rintro ⟨g, hgm, hp, s', hgs, hs1, hs2⟩
          rcases List.mem_cons.mp hgm with rfl | hg'
          · rw [hg] at hgs; cases hgs; exact absurd rfl hs1
          · exact ⟨g, hg', hp, s', hgs, hs1, hs2⟩
      · rw [if_neg hs]
        by_cases hne : s ≠ f.sha
        · rw [if_pos hne]
          simp only [List.mem_cons, ih]
          constructor
          · rintro (rfl | ⟨g, hg', hp, hsx⟩)
            · exact ⟨f, Or.inl rfl, rfl, s, hg, hs, hne⟩
            · exact ⟨g, Or.inr hg', hp, hsx⟩
          · rintro ⟨g, hgm, hp, s', hgs, hs1, hs2⟩
            rcases hgm with rfl | hg'
            · exact Or.inl hp.symm
            · exact Or.inr ⟨g, hg', hp, s', hgs, hs1, hs2⟩
        · rw [if_neg hne]
          push_neg at hne
          simp only [ih]
          constructor
          · rintro ⟨g, hg', hp, hsx⟩
            exact ⟨g, List.mem_cons_of_mem f hg', hp, hsx⟩
          · rintro ⟨g, hgm, hp, s', hgs, hs1, hs2⟩
            rcases List.mem_cons.mp hgm with rfl | hg'
            · rw [hg] at hgs; cases hgs; exact absurd hne hs2
            · exact ⟨g, hg', hp, s', hgs, hs1, hs2⟩

theorem diffRemovedLoop_mem (remoteByPath : List (String × String))
    (files : List GitHubSkillSourceFile) (p : String) :
    p ∈ diffRemovedLoop remoteByPath files ↔
      ∃ f ∈ files, f.path = p ∧ jsMapHas remoteByPath f.path = false := by
  induction files with
  | nil => simp [diffRemovedLoop]
  | cons f rest ih =>
    by_cases hh : jsMapHas remoteByPath f.path
    · simp only [diffRemovedLoop]
      rw [if_pos hh]
      simp only [ih]
      constructor
      · rintro ⟨g, hg', hp, hhas⟩
        exact ⟨g, List.mem_cons_of_mem f hg', hp, hhas⟩
      · rintro ⟨g, hgm, hp, hhas⟩
        rcases List.mem_cons.mp hgm with rfl | hg'
        · rw [hh] at hhas; cases hhas
        · exact ⟨g, hg', hp, hhas⟩
    · simp only [diffRemovedLoop]
      rw [if_neg hh]
      simp only [List.mem_cons, ih]
      constructor
      · rintro (rfl | ⟨g, hg', hp, hhas⟩)
        · exact ⟨f, Or.inl rfl, rfl, by simpa using hh⟩
        · exact ⟨g, Or.inr hg', hp, hhas⟩
      · rintro ⟨g, (rfl | hg'), hp, hhas⟩
        · exact Or.inl hp.symm
        · exact Or.inr ⟨g, hg', hp, hhas⟩

theorem jsMapHas_false_iff (entries : List (String × String)) (k : String) :
    jsMapHas entries k = false ↔ k ∉ entries.map Prod.fst := by
  rw [jsMapHas]
  cases h : jsMapGet entries k with
  | none => simpa using (jsMapGet_eq_none entries k).mp h
  | some v =>
    exact iff_of_false (by simp)
      (fun hk => hk (List.mem_map.mpr ⟨(k, v), jsMapGet_eq_some entries k v h, rfl⟩))

/-- C1 counterexample.  The JavaScript truthiness test `if (!localSha)` treats
a recorded empty-string hash like an absent entry: with stored files
`{a: ""}` and remote listing `{a: h3}` — the path present locally with a
different hash, which the claim classifies as `modified` — `checkUpdate`'s
diff reports `added: [a], modified: []`. -/
theorem C1_counterexample :
    diffGitHubSkillMetadata "s"
      ⟨"o", "r", "m", "", "u", "t", [⟨"a", ""⟩]⟩
      ⟨"o", "r", "m", "", "u"⟩
      [⟨"a", "h3"⟩] =
    .ok { skillName := "s", updateAvailable := true, added := ["a"], modified := [],
          removed := [], remoteFileCount := 1 } := by
  decide

/-- C1 (amended).  For every stored file list in which every recorded hash is
non-empty (and with duplicate-free path lists, per the data-model invariant,
over an already-relativized remote listing), the diff classifies exactly as
claimed: a remote path absent from the stored list is `added`, a remote path
present with a different hash is `modified`, a stored path absent from the
remote set is `removed`, and `updateAvailable` is true iff one of the three
lists is non-empty.  The second conjunct is the claim's concrete example:
stored `{a: h1, b: h2}` against remote `{a: h1, c: h3}` gives
`added: [c], modified: [], removed: [b]`. -/
theorem C1_diff_spec :
    (∀ (name : String) (metadata : GitHubSkillSourceMetadata) (target : GitHubRepoTarget)
       (remote : List GitHubSkillSourceFile),
      normalizeSkillPath target.path = "" →
      (∀ f ∈ remote, normalizeSkillPath f.path = f.path) →
      (metadata.files.map (fun f => f.path)).Nodup →
      (remote.map (fun f => f.path)).Nodup →
      (∀ f ∈ metadata.files, f.sha ≠ "") →
      ∃ res, diffGitHubSkillMetadata name metadata target remote = .ok res ∧
        (∀ p, p ∈ res.added ↔
          p ∈ remote.map (fun f => f.path) ∧ p ∉ metadata.files.map (fun f => f.path)) ∧
        (∀ p, p ∈ res.modified ↔
          ∃ fl ∈ metadata.files, ∃ fr ∈ remote,
            fl.path = p ∧ fr.path = p ∧ fl.sha ≠ fr.sha) ∧
        (∀ p, p ∈ res.removed ↔
          p ∈ metadata.files.map (fun f => f.path) ∧ p ∉ remote.map (fun f => f.path)) ∧
        (res.updateAvailable = true ↔
          (res.added ≠ [] ∨ res.modified ≠ [] ∨ res.removed ≠ []))) ∧
    diffGitHubSkillMetadata "s"
      ⟨"o", "r", "m", "", "u", "t", [⟨"a", "h1"⟩, ⟨"b", "h2"⟩]⟩
      ⟨"o", "r", "m", "", "u"⟩
      [⟨"a", "h1"⟩, ⟨"c", "h3"⟩] =
    .ok { skillName := "s", updateAvailable := true, added := ["c"], modified := [],
          removed := ["b"], remoteFileCount := 2 } := by
  constructor
  · intro name metadata target remote hroot hnorm hndl hndr hsha
    have hmap := relMapM_id target.path hroot remote hnorm
    have hkeys : (metadata.files.map (fun f => (f.path, f.sha))).map Prod.fst =
        metadata.files.map (fun f => f.path) := by
      rw [List.map_map]; rfl
    have hmemsort : ∀ f : GitHubSkillSourceFile,
        f ∈ sortSourceFiles remote ↔ f ∈ remote := fun f => mem_sortSourceFiles
    have hrkeys : ((sortSourceFiles remote).map (fun f => (f.path, f.sha))).map Prod.fst =
        (sortSourceFiles remote).map (fun f => f.path) := by
      rw [List.map_map]; rfl
    have hrpaths : ∀ p, p ∈ (sortSourceFiles remote).map (fun f => f.path) ↔
        p ∈ remote.map (fun f => f.path) :=
      fun p => ((List.perm_insertionSort _ remote).map (fun f => f.path)).mem_iff
    refine ⟨diffCore name metadata.files (sortSourceFiles remote), ?_, ?_, ?_, ?_, ?_⟩
    · simp only [diffGitHubSkillMetadata, hmap]
    · intro p
      show p ∈ (diffRemoteLoop (metadata.files.map fun f => (f.path, f.sha))
        (sortSourceFiles remote)).1 ↔ _
      rw [diffRemoteLoop_added_mem]
      constructor
      · rintro ⟨f, hfs, rfl, hfal⟩
        refine ⟨List.mem_map.mpr ⟨f, (hmemsort f).mp hfs, rfl⟩, ?_⟩
        intro hmem
        rcases hfal with hget | hget
        · exact (jsMapGet_eq_none _ _).mp hget (hkeys ▸ hmem)
        · obtain ⟨fl, hfl, heq⟩ := List.mem_map.mp (jsMapGet_eq_some _ _ _ hget)
          exact hsha fl hfl (congrArg Prod.snd heq)
      · rintro ⟨hpr, hpm⟩
        obtain ⟨f, hf, rfl⟩ := List.mem_map.mp hpr
        exact ⟨f, (hmemsort f).mpr hf, rfl,
          Or.inl ((jsMapGet_eq_none _ _).mpr (fun hc => hpm (hkeys ▸ hc)))⟩
    · intro p
      show p ∈ (diffRemoteLoop (metadata.files.map fun f => (f.path, f.sha))
        (sortSourceFiles remote)).2 ↔ _
      rw [diffRemoteLoop_modified_mem]
      constructor
      · rintro ⟨f, hfs, rfl, s, hget, hs1, hs2⟩
        obtain ⟨fl, hfl, heq⟩ := List.mem_map.mp (jsMapGet_eq_some _ _ _ hget)
        refine ⟨fl, hfl, f, (hmemsort f).mp hfs, congrArg Prod.fst heq, rfl, ?_⟩
        have hfls : fl.sha = s := congrArg Prod.snd heq
        rw [hfls]
        exact hs2
      · rintro ⟨fl, hfl, fr, hfr, hflp, rfl, hne⟩
        refine ⟨fr, (hmemsort fr).mpr hfr, rfl, fl.sha, ?_, hsha fl hfl, ?_⟩
        · exact jsMapGet_some_of_mem _ (hkeys ▸ hndl) _ _
            (List.mem_map.mpr ⟨fl, hfl, by rw [hflp]⟩)
        · exact hne
    · intro p
      show p ∈ diffRemovedLoop ((sortSourceFiles remote).map fun f => (f.path, f.sha))
        metadata.files ↔ _
      rw [diffRemovedLoop_mem]
      constructor
      · rintro ⟨f, hf, rfl, hhas⟩
        refine ⟨List.mem_map.mpr ⟨f, hf, rfl⟩, ?_⟩
        intro hmem
        exact (jsMapHas_false_iff _ _).mp hhas (hrkeys ▸ (hrpaths f.path).mpr hmem)
      · rintro ⟨hpm, hpr⟩
        obtain ⟨f, hf, rfl⟩ := List.mem_map.mp hpm
        exact ⟨f, hf, rfl, (jsMapHas_false_iff _ _).mpr
          (fun hc => hpr ((hrpaths f.path).mp (hrkeys ▸ hc)))⟩
    · show (!(diffRemoteLoop (metadata.files.map fun f => (f.path, f.sha))
          (sortSourceFiles remote)).1.isEmpty ||
        !(diffRemoteLoop (metadata.files.map fun f => (f.path, f.sha))
          (sortSourceFiles remote)).2.isEmpty ||
        !(diffRemovedLoop ((sortSourceFiles remote).map fun f => (f.path, f.sha))
          metadata.files).isEmpty) = true ↔ _
      simp only [Bool.or_eq_true, Bool.not_eq_true', List.isEmpty_eq_false, ne_eq, or_assoc]
      exact Iff.rfl
  · decide

/-- Witness for C1: the amended characterization applied at the claim's own
example (stored `{a: h1, b: h2}`, remote `{a: h1, c: h3}`), every hypothesis
discharged by computation. -/
theorem C1_witness :
    ∃ res, diffGitHubSkillMetadata "s"
      ⟨"o", "r", "m", "", "u", "t", [⟨"a", "h1"⟩, ⟨"b", "h2"⟩]⟩
      ⟨"o", "r", "m", "", "u"⟩
      [⟨"a", "h1"⟩, ⟨"c", "h3"⟩] = .ok res ∧
      (∀ p, p ∈ res.added ↔
        p ∈ [⟨"a", "h1"⟩, ⟨"c", "h3"⟩].map (fun f : GitHubSkillSourceFile => f.path) ∧
        p ∉ [⟨"a", "h1"⟩, ⟨"b", "h2"⟩].map (fun f : GitHubSkillSourceFile => f.path)) ∧
      (∀ p, p ∈ res.modified ↔
        ∃ fl ∈ ([⟨"a", "h1"⟩, ⟨"b", "h2"⟩] : List GitHubSkillSourceFile),
        ∃ fr ∈ ([⟨"a", "h1"⟩, ⟨"c", "h3"⟩] : List GitHubSkillSourceFile),
          fl.path = p ∧ fr.path = p ∧ fl.sha ≠ fr.sha) ∧
      (∀ p, p ∈ res.removed ↔
        p ∈ [⟨"a", "h1"⟩, ⟨"b", "h2"⟩].map (fun f : GitHubSkillSourceFile => f.path) ∧
        p ∉ [⟨"a", "h1"⟩, ⟨"c", "h3"⟩].map (fun f : GitHubSkillSourceFile => f.path)) ∧
      (res.updateAvailable = true ↔
        (res.added ≠ [] ∨ res.modified ≠ [] ∨ res.removed ≠ [])) :=
  C1_diff_spec.1 "s" ⟨"o", "r", "m", "", "u", "t", [⟨"a", "h1"⟩, ⟨"b", "h2"⟩]⟩
    ⟨"o", "r", "m", "", "u"⟩ [⟨"a", "h1"⟩, ⟨"c", "h3"⟩]
    (by decide) (by decide) (by decide) (by decide) (by decide)

/-! ## Claim C8: collection discovery -/

instance discoveredLeTotal :
    IsTotal GitHubDiscoveredSkill (fun a b => strLeB a.skillName b.skillName = true) :=
  ⟨fun a b => charListLe_total a.skillName.data b.skillName.data⟩

instance discoveredLeTrans :
    IsTrans GitHubDiscoveredSkill (fun a b => strLeB a.skillName b.skillName = true) :=
  ⟨fun a b c => charListLe_trans a.skillName.data b.skillName.data c.skillName.data⟩

theorem discoverGitHubSkillDirectory_flag (env : RemoteEnv) (target : GitHubRepoTarget)
    (p : String) (existing : List String) (s : GitHubDiscoveredSkill) :
    discoverGitHubSkillDirectory env target p existing = .ok (some s) →
    s.alreadyInstalled = existing.contains s.skillName := by
  intro h
  unfold discoverGitHubSkillDirectory at h
  cases hl : env.listDir p with
  | error e => simp only [hl, bind, Except.bind] at h; simp at h
  | ok entries =>
    simp only [hl, bind, Except.bind] at h
    cases hf : entries.find? (fun e => e.type == EntryKind.file && e.name == "SKILL.md") with
    | none => simp only [hf, pure, Except.pure] at h; simp at h
    | some entry =>
      simp only [hf] at h
      cases hmd : env.fetchFile entry.url with
      | error e => simp only [hmd, bind, Except.bind] at h; simp at h
      | ok md =>
        simp only [hmd, bind, Except.bind] at h
        cases hp : parseSkillFrontmatter md with
        | error e => simp only [hp, bind, Except.bind] at h; simp at h
        | ok parsed =>
          simp only [hp, bind, Except.bind] at h
          cases hv : validateSkillName parsed.name with
          | some e => simp only [hv] at h; simp at h
          | none =>
            simp only [hv] at h
            by_cases hm : dirNameMismatch p parsed.name = true
            · rw [if_pos hm] at h
              cases h
            · rw [if_neg hm] at h
              simp only [pure, Except.pure, Except.ok.injEq, Option.some.injEq] at h
              subst h
              rfl

/-- The reduced shape of `discoverGitHubSkillInstallTarget` on a listable
target directory with no root `SKILL.md`. -/
theorem discoverGitHubSkillInstallTarget_eq (env : RemoteEnv) (store : LocalStore)
    (target : GitHubRepoTarget) (entries : List GitHubDirectoryEntry)
    (hlist : env.listDir target.path = .ok entries)
    (hnone : entries.any (fun e => e.type == EntryKind.file && e.name == "SKILL.md") = false) :
    discoverGitHubSkillInstallTarget env store target =
      (if (sortDiscovered ((entries.filter (fun e => e.type == EntryKind.dir)).filterMap
          (fun e => match discoverGitHubSkillDirectory env target e.path
              (listUserSkillNames store) with
            | .ok (some s) => some s
            | _ => none))).isEmpty then
        .error "No installable skills found in this GitHub directory"
      else
        .ok (.collection target.owner target.repo target.ref target.path target.originalUrl
          (sortDiscovered ((entries.filter (fun e => e.type == EntryKind.dir)).filterMap
            (fun e => match discoverGitHubSkillDirectory env target e.path
                (listUserSkillNames store) with
              | .ok (some s) => some s
              | _ => none)))
          (sortStrings ((entries.filter (fun e => e.type == EntryKind.dir)).filterMap
            (fun e => match discoverGitHubSkillDirectory env target e.path
                (listUserSkillNames store) with
              | .error m => some (cat e.name (cat ": " m))
              | .ok _ => none))))) := by
  unfold discoverGitHubSkillInstallTarget
  simp only [hlist, bind, Except.bind, hnone, Bool.false_eq_true, if_false,
    List.filterMap_map]
  rfl

/-- C8.  For a collection-discovery run (listable target, no root manifest):
when no candidate discovery succeeds the operation fails with the
no-installable-units error; otherwise it returns a collection whose unit list
is the discovered list sorted by unit name (same members), and in which every
unit's `alreadyInstalled` flag equals membership of its name in the local
namespace listing taken at discovery time. -/
theorem C8_discovery_spec :
    ∀ (env : RemoteEnv) (store : LocalStore) (target : GitHubRepoTarget)
      (entries : List GitHubDirectoryEntry) (discList : List GitHubDiscoveredSkill),
    env.listDir target.path = .ok entries →
    entries.any (fun e => e.type == EntryKind.file && e.name == "SKILL.md") = false →
    discList = (entries.filter (fun e => e.type == EntryKind.dir)).filterMap
      (fun e => match discoverGitHubSkillDirectory env target e.path
          (listUserSkillNames store) with
        | .ok (some s) => some s
        | _ => none) →
    (discList = [] →
      discoverGitHubSkillInstallTarget env store target =
        .error "No installable skills found in this GitHub directory") ∧
    (discList ≠ [] →
      ∃ warnings,
        discoverGitHubSkillInstallTarget env store target =
          .ok (.collection target.owner target.repo target.ref target.path
            target.originalUrl (sortDiscovered discList) warnings) ∧
        List.Sorted (fun a b => strLeB a.skillName b.skillName = true)
          (sortDiscovered discList) ∧
        (∀ s, s ∈ sortDiscovered discList ↔ s ∈ discList) ∧
        (∀ s ∈ sortDiscovered discList,
          (s.alreadyInstalled = true ↔ s.skillName ∈ listUserSkillNames store))) := by
  intro env store target entries discList hlist hnone hdisc
  rw [discoverGitHubSkillInstallTarget_eq env store target entries hlist hnone, ← hdisc]
  constructor
  · intro hempty
    subst hempty
    rfl
  · intro hne
    have hsortne : (sortDiscovered discList).isEmpty = false := by
      rw [List.isEmpty_eq_false]
      intro hs
      have hperm : discList.Perm (sortDiscovered discList) :=
        (List.perm_insertionSort _ discList).symm
      rw [hs] at hperm
      exact hne hperm.eq_nil
    rw [hsortne]
    simp only [Bool.false_eq_true, if_false]
    refine ⟨_, rfl, List.sorted_insertionSort _ discList,
      fun s => (List.perm_insertionSort _ discList).mem_iff, ?_⟩
    intro s hs
    have hmem : s ∈ discList := (List.perm_insertionSort _ discList).mem_iff.mp hs
    rw [hdisc] at hmem
    obtain ⟨e, hel, hes⟩ := List.mem_filterMap.mp hmem
    have hflag : s.alreadyInstalled = (listUserSkillNames store).contains s.skillName := by
      cases hd : discoverGitHubSkillDirectory env target e.path (listUserSkillNames store) with
      | error m => rw [hd] at hes; cases hes
      | ok o =>
        cases o with
        | none => rw [hd] at hes; cases hes
        | some s' =>
          rw [hd] at hes
          cases hes
          exact discoverGitHubSkillDirectory_flag env target e.path _ s hd
    rw [hflag]
    exact List.elem_iff

/-- Witness for C8: the discovery theorem applied to a concrete two-child
collection (one good candidate, one candidate whose manifest name mismatches
its directory), against a store that already holds one of the names. -/
theorem C8_witness :
    ∃ warnings,
      discoverGitHubSkillInstallTarget
        ⟨fun p =>
            if p = "coll" then .ok [⟨"s1", "coll/s1", "", "", EntryKind.dir⟩,
                                    ⟨"bad", "coll/bad", "", "", EntryKind.dir⟩]
            else if p = "coll/s1" then .ok [⟨"SKILL.md", "coll/s1/SKILL.md", "h1", "u1",
                                             EntryKind.file⟩]
            else if p = "coll/bad" then .ok [⟨"SKILL.md", "coll/bad/SKILL.md", "h2", "u2",
                                              EntryKind.file⟩]
            else .error "404",
          fun u =>
            if u = "u1" then .ok "---\nname: s1\n---\n"
            else if u = "u2" then .ok "---\nname: other\n---\n"
            else .error "404",
          "t0"⟩
        ⟨[("s1", [])]⟩
        ⟨"o", "r", "main", "coll", "orig"⟩ =
      .ok (.collection "o" "r" "main" "coll" "orig"
        (sortDiscovered [⟨"s1", "", "o", "r", "main", "coll/s1",
          "https://github.com/o/r/tree/main/coll/s1", true⟩]) warnings) ∧
      List.Sorted (fun a b => strLeB a.skillName b.skillName = true)
        (sortDiscovered [⟨"s1", "", "o", "r", "main", "coll/s1",
          "https://github.com/o/r/tree/main/coll/s1", true⟩]) ∧
      (∀ s, s ∈ sortDiscovered [⟨"s1", "", "o", "r", "main", "coll/s1",
          "https://github.com/o/r/tree/main/coll/s1", true⟩] ↔
        s ∈ [(⟨"s1", "", "o", "r", "main", "coll/s1",
          "https://github.com/o/r/tree/main/coll/s1", true⟩ : GitHubDiscoveredSkill)]) ∧
      (∀ s ∈ sortDiscovered [⟨"s1", "", "o", "r", "main", "coll/s1",
          "https://github.com/o/r/tree/main/coll/s1", true⟩],
        (s.alreadyInstalled = true ↔ s.skillName ∈ listUserSkillNames ⟨[("s1", [])]⟩)) :=
  (C8_discovery_spec
    ⟨fun p =>
        if p = "coll" then .ok [⟨"s1", "coll/s1", "", "", EntryKind.dir⟩,
                                ⟨"bad", "coll/bad", "", "", EntryKind.dir⟩]
        else if p = "coll/s1" then .ok [⟨"SKILL.md", "coll/s1/SKILL.md", "h1", "u1",
                                         EntryKind.file⟩]
        else if p = "coll/bad" then .ok [⟨"SKILL.md", "coll/bad/SKILL.md", "h2", "u2",
                                          EntryKind.file⟩]
        else .error "404",
      fun u =>
        if u = "u1" then .ok "---\nname: s1\n---\n"
        else if u = "u2" then .ok "---\nname: other\n---\n"
        else .error "404",
      "t0"⟩
    ⟨[("s1", [])]⟩
    ⟨"o", "r", "main", "coll", "orig"⟩
    [⟨"s1", "coll/s1", "", "", EntryKind.dir⟩, ⟨"bad", "coll/bad", "", "", EntryKind.dir⟩]
    [⟨"s1", "", "o", "r", "main", "coll/s1",
      "https://github.com/o/r/tree/main/coll/s1", true⟩]
    (by decide) (by decide) (by decide)).2 (by decide)

/-! ## Claim C3: name mismatch — fetch-time failure vs discovery warning -/

theorem dirNameMismatch_true (path name d : String)
    (hlast : (pathSegments path).getLast? = some d) (hne : d ≠ name) :
    dirNameMismatch path name = true := by
  unfold dirNameMismatch
  rw [hlast]
  exact bne_iff_ne.mpr hne

theorem fetchGitHubSkillBundle_mismatch (env : RemoteEnv) (fuel : Nat)
    (target : GitHubRepoTarget) (entries : List GitHubDirectoryEntry)
    (entry : GitHubDirectoryEntry) (md : String) (parsed : ParsedSkillFrontmatter)
    (d : String)
    (hlist : env.listDir target.path = .ok entries)
    (hfind : entries.find? (fun e => e.type == EntryKind.file && e.name == "SKILL.md") =
      some entry)
    (hmd : env.fetchFile entry.url = .ok md)
    (hp : parseSkillFrontmatter md = .ok parsed)
    (hv : validateSkillName parsed.name = none)
    (hlast : (pathSegments target.path).getLast? = some d)
    (hne : d ≠ parsed.name) :
    fetchGitHubSkillBundle env fuel target =
      .error "GitHub directory name must match the skill name declared in SKILL.md" := by
  unfold fetchGitHubSkillBundle
  simp only [hlist, bind, Except.bind, hfind, hmd, hp, hv]
  rw [if_pos (dirNameMismatch_true target.path parsed.name d hlast hne)]

theorem discoverGitHubSkillDirectory_mismatch (env : RemoteEnv)
    (baseTarget : GitHubRepoTarget) (directoryPath : String) (existing : List String)
    (entries : List GitHubDirectoryEntry) (entry : GitHubDirectoryEntry) (md : String)
    (parsed : ParsedSkillFrontmatter) (d : String)
    (hlist : env.listDir directoryPath = .ok entries)
    (hfind : entries.find? (fun e => e.type == EntryKind.file && e.name == "SKILL.md") =
      some entry)
    (hmd : env.fetchFile entry.url = .ok md)
    (hp : parseSkillFrontmatter md = .ok parsed)
    (hv : validateSkillName parsed.name = none)
    (hlast : (pathSegments directoryPath).getLast? = some d)
    (hne : d ≠ parsed.name) :
    discoverGitHubSkillDirectory env baseTarget directoryPath existing =
      .error "GitHub directory name must match the skill name declared in SKILL.md" := by
  unfold discoverGitHubSkillDirectory
  simp only [hlist, bind, Except.bind, hfind, hmd, hp, hv]
  rw [if_pos (dirNameMismatch_true directoryPath parsed.name d hlast hne)]

/-- C3.  A remote directory whose manifest declares a name different from the
directory's basename: (1) the single-unit bundle fetch fails with the
name-mismatch error; (2) a failed bundle fetch makes `installGitHubSkillTarget`
and `forceUpdateGitHubSkill` fail with that same error, without touching the
store — install and force-update fail hard at fetch time; (3) during
collection discovery the same mismatch makes that candidate's discovery fail
with the same error; (4) such a per-candidate failure only records the warning
`"<child>: <message>"` and never aborts the sibling candidates: any sibling
that discovers successfully still appears in the returned collection. -/
theorem C3_name_mismatch_spec :
    (∀ (env : RemoteEnv) (fuel : Nat) (target : GitHubRepoTarget)
       (entries : List GitHubDirectoryEntry) (entry : GitHubDirectoryEntry)
       (md : String) (parsed : ParsedSkillFrontmatter) (d : String),
      env.listDir target.path = .ok entries →
      entries.find? (fun e => e.type == EntryKind.file && e.name == "SKILL.md") =
        some entry →
      env.fetchFile entry.url = .ok md →
      parseSkillFrontmatter md = .ok parsed →
      validateSkillName parsed.name = none →
      (pathSegments target.path).getLast? = some d →
      d ≠ parsed.name →
      fetchGitHubSkillBundle env fuel target =
        .error "GitHub directory name must match the skill name declared in SKILL.md") ∧
    (∀ (env : RemoteEnv) (fuel : Nat) (store : LocalStore) (target : GitHubRepoTarget)
       (e : String),
      fetchGitHubSkillBundle env fuel target = .error e →
      installGitHubSkillTarget env fuel store target = (store, .error e)) ∧
    (∀ (env : RemoteEnv) (fuel : Nat) (store : LocalStore) (skillName : String)
       (metadata : GitHubSkillSourceMetadata) (e : String),
      readGitHubSkillSourceMetadata store skillName = some metadata →
      fetchGitHubSkillBundle env fuel
        ⟨metadata.owner, metadata.repo, metadata.ref, metadata.path,
          metadata.originalUrl⟩ = .error e →
      forceUpdateGitHubSkill env fuel store skillName = (store, .error e)) ∧
    (∀ (env : RemoteEnv) (baseTarget : GitHubRepoTarget) (directoryPath : String)
       (existing : List String) (entries : List GitHubDirectoryEntry)
       (entry : GitHubDirectoryEntry) (md : String) (parsed : ParsedSkillFrontmatter)
       (d : String),
      env.listDir directoryPath = .ok entries →
      entries.find? (fun e => e.type == EntryKind.file && e.name == "SKILL.md") =
        some entry →
      env.fetchFile entry.url = .ok md →
      parseSkillFrontmatter md = .ok parsed →
      validateSkillName parsed.name = none →
      (pathSegments directoryPath).getLast? = some d →
      d ≠ parsed.name →
      discoverGitHubSkillDirectory env baseTarget directoryPath existing =
        .error "GitHub directory name must match the skill name declared in SKILL.md") ∧
    (∀ (env : RemoteEnv) (store : LocalStore) (target : GitHubRepoTarget)
       (entries : List GitHubDirectoryEntry) (c c' : GitHubDirectoryEntry)
       (s : GitHubDiscoveredSkill) (m : String),
      env.listDir target.path = .ok entries →
      entries.any (fun e => e.type == EntryKind.file && e.name == "SKILL.md") = false →
      c ∈ entries.filter (fun e => e.type == EntryKind.dir) →
      c' ∈ entries.filter (fun e => e.type == EntryKind.dir) →
      discoverGitHubSkillDirectory env target c.path (listUserSkillNames store) =
        .error m →
      discoverGitHubSkillDirectory env target c'.path (listUserSkillNames store) =
        .ok (some s) →
      ∃ skills warnings,
        discoverGitHubSkillInstallTarget env store target =
          .ok (.collection target.owner target.repo target.ref target.path
            target.originalUrl skills warnings) ∧
        s ∈ skills ∧ cat c.name (cat ": " m) ∈ warnings) := by
  refine ⟨fetchGitHubSkillBundle_mismatch, ?_, ?_, discoverGitHubSkillDirectory_mismatch, ?_⟩
  · intro env fuel store target e hfetch
    unfold installGitHubSkillTarget
    rw [hfetch]
  · intro env fuel store skillName metadata e hmeta hfetch
    unfold forceUpdateGitHubSkill
    rw [hmeta]
    simp only [hfetch]
  · intro env store target entries c c' s m hlist hnone hc hc' herr hok
    rw [discoverGitHubSkillInstallTarget_eq env store target entries hlist hnone]
    have hsmem : s ∈ (entries.filter (fun e => e.type == EntryKind.dir)).filterMap
        (fun e => match discoverGitHubSkillDirectory env target e.path
            (listUserSkillNames store) with
          | .ok (some s) => some s
          | _ => none) :=
      List.mem_filterMap.mpr ⟨c', hc', by rw [hok]⟩
    have hsortne : (sortDiscovered ((entries.filter (fun e => e.type == EntryKind.dir)).filterMap
        (fun e => match discoverGitHubSkillDirectory env target e.path
            (listUserSkillNames store) with
          | .ok (some s) => some s
          | _ => none))).isEmpty = false := by
      rw [List.isEmpty_eq_false]
      intro hs
      have hmem2 : s ∈ sortDiscovered ((entries.filter (fun e => e.type == EntryKind.dir)).filterMap
          (fun e => match discoverGitHubSkillDirectory env target e.path
              (listUserSkillNames store) with
            | .ok (some s) => some s
            | _ => none)) := mem_sortDiscovered.mpr hsmem
      rw [hs] at hmem2
      cases hmem2
    rw [hsortne]
    simp only [Bool.false_eq_true, if_false]
    refine ⟨_, _, rfl, ?_, ?_⟩
    · exact (List.perm_insertionSort _ _).mem_iff.mpr hsmem
    · exact mem_sortStrings.mpr
        (List.mem_filterMap.mpr ⟨c, hc, by rw [herr]⟩)

/-- Witness for C3: a concrete collection with one mismatching candidate and
one good sibling — the single-unit fetch of the mismatching directory fails
with the name-mismatch error, while collection discovery returns the good
sibling and records the warning. -/
theorem C3_witness :
    fetchGitHubSkillBundle
      ⟨fun p =>
          if p = "coll/bad" then .ok [⟨"SKILL.md", "coll/bad/SKILL.md", "h2", "u2",
                                       EntryKind.file⟩]
          else .error "404",
        fun u => if u = "u2" then .ok "---\nname: other\n---\n" else .error "404",
        "t0"⟩ 5
      ⟨"o", "r", "main", "coll/bad", "orig"⟩ =
      .error "GitHub directory name must match the skill name declared in SKILL.md" ∧
    ∃ skills warnings,
      discoverGitHubSkillInstallTarget
        ⟨fun p =>
            if p = "coll" then .ok [⟨"s1", "coll/s1", "", "", EntryKind.dir⟩,
                                    ⟨"bad", "coll/bad", "", "", EntryKind.dir⟩]
            else if p = "coll/s1" then .ok [⟨"SKILL.md", "coll/s1/SKILL.md", "h1", "u1",
                                             EntryKind.file⟩]
            else if p = "coll/bad" then .ok [⟨"SKILL.md", "coll/bad/SKILL.md", "h2", "u2",
                                              EntryKind.file⟩]
            else .error "404",
          fun u =>
            if u = "u1" then .ok "---\nname: s1\n---\n"
            else if u = "u2" then .ok "---\nname: other\n---\n"
            else .error "404",
          "t0"⟩
        ⟨[]⟩
        ⟨"o", "r", "main", "coll", "orig"⟩ =
        .ok (.collection "o" "r" "main" "coll" "orig" skills warnings) ∧
      (⟨"s1", "", "o", "r", "main", "coll/s1",
        "https://github.com/o/r/tree/main/coll/s1", false⟩ : GitHubDiscoveredSkill) ∈
          skills ∧
      cat "bad" (cat ": "
        "GitHub directory name must match the skill name declared in SKILL.md") ∈ warnings :=
  ⟨C3_name_mismatch_spec.1
      ⟨fun p =>
          if p = "coll/bad" then .ok [⟨"SKILL.md", "coll/bad/SKILL.md", "h2", "u2",
                                       EntryKind.file⟩]
          else .error "404",
        fun u => if u = "u2" then .ok "---\nname: other\n---\n" else .error "404",
        "t0"⟩ 5
      ⟨"o", "r", "main", "coll/bad", "orig"⟩
      [⟨"SKILL.md", "coll/bad/SKILL.md", "h2", "u2", EntryKind.file⟩]
      ⟨"SKILL.md", "coll/bad/SKILL.md", "h2", "u2", EntryKind.file⟩
      "---\nname: other\n---\n" ⟨"other", ""⟩ "bad"
      (by decide) (by decide) (by decide) (by decide) (by decide) (by decide) (by decide),
   C3_name_mismatch_spec.2.2.2.2
      ⟨fun p =>
          if p = "coll" then .ok [⟨"s1", "coll/s1", "", "", EntryKind.dir⟩,
                                  ⟨"bad", "coll/bad", "", "", EntryKind.dir⟩]
          else if p = "coll/s1" then .ok [⟨"SKILL.md", "coll/s1/SKILL.md", "h1", "u1",
                                           EntryKind.file⟩]
          else if p = "coll/bad" then .ok [⟨"SKILL.md", "coll/bad/SKILL.md", "h2", "u2",
                                            EntryKind.file⟩]
          else .error "404",
        fun u =>
          if u = "u1" then .ok "---\nname: s1\n---\n"
          else if u = "u2" then .ok "---\nname: other\n---\n"
          else .error "404",
        "t0"⟩
      ⟨[]⟩
      ⟨"o", "r", "main", "coll", "orig"⟩
      [⟨"s1", "coll/s1", "", "", EntryKind.dir⟩, ⟨"bad", "coll/bad", "", "", EntryKind.dir⟩]
      ⟨"bad", "coll/bad", "", "", EntryKind.dir⟩
      ⟨"s1", "coll/s1", "", "", EntryKind.dir⟩
      ⟨"s1", "", "o", "r", "main", "coll/s1",
        "https://github.com/o/r/tree/main/coll/s1", false⟩
      "GitHub directory name must match the skill name declared in SKILL.md"
      (by decide) (by decide) (by decide) (by decide) (by decide) (by decide)⟩

/-! ## Claim C2: the batch installer -/

theorem skillExists_startsWith (n : String) :
    strStartsWith (cat "Skill already exists: " n) "Skill already exists:" = true := by
  show ("Skill already exists:").data.isPrefixOf
    (("Skill already exists: ").data ++ n.data) = true
  rw [List.isPrefixOf_iff_prefix]
  exact List.IsPrefix.trans (by decide) (List.prefix_append _ _)

/-- C2.  The batch installer returns exactly one result per input unit and, by
type, never throws: (1) the result list has the length of the input; (2) the
i-th result is the classified outcome of independently installing the i-th
unit against the discovery-time store; (3) a successful single install yields
`installed` with its file count; (4) an install failure whose message does not
carry the name-collision prefix yields `failed` with the message retained;
(5) a fetched bundle whose name already exists locally yields `skipped` with
the collision message; (6) the i-th outcome depends only on the i-th input
unit, so one unit's failure never affects another's result; (7) the claim's
scenario: five units — one name collision, one network failure — give exactly
3 `installed`, 1 `skipped`, 1 `failed`. -/
theorem C2_batch_install_spec :
    (∀ (env : RemoteEnv) (fuel : Nat) (store : LocalStore)
       (skills : List GitHubDiscoveredSkill),
      (installSelectedGitHubSkills env fuel store skills).results.length = skills.length) ∧
    (∀ (env : RemoteEnv) (fuel : Nat) (store : LocalStore)
       (skills : List GitHubDiscoveredSkill) (i : Nat) (skill : GitHubDiscoveredSkill),
      skills[i]? = some skill →
      (installSelectedGitHubSkills env fuel store skills).results[i]? =
        some (installOneOutcome env fuel store skill)) ∧
    (∀ (env : RemoteEnv) (fuel : Nat) (store : LocalStore)
       (skill : GitHubDiscoveredSkill) (r : GitHubInstallResult),
      (installGitHubSkillTarget env fuel store (targetOfDiscovered skill)).2 = .ok r →
      installOneOutcome env fuel store skill =
        { skillName := r.skillName, status := BulkStatus.installed,
          fileCount := r.fileCount, message := none }) ∧
    (∀ (env : RemoteEnv) (fuel : Nat) (store : LocalStore)
       (skill : GitHubDiscoveredSkill) (msg : String),
      (installGitHubSkillTarget env fuel store (targetOfDiscovered skill)).2 = .error msg →
      strStartsWith msg "Skill already exists:" = false →
      installOneOutcome env fuel store skill =
        { skillName := skill.skillName, status := BulkStatus.failed,
          fileCount := 0, message := some msg }) ∧
    (∀ (env : RemoteEnv) (fuel : Nat) (store : LocalStore)
       (skill : GitHubDiscoveredSkill) (bundle : GitHubSkillBundle),
      fetchGitHubSkillBundle env fuel (targetOfDiscovered skill) = .ok bundle →
      (listUserSkillNames store).contains bundle.skillName = true →
      installOneOutcome env fuel store skill =
        { skillName := skill.skillName, status := BulkStatus.skipped,
          fileCount := 0, message := some (cat "Skill already exists: " bundle.skillName) }) ∧
    (∀ (env : RemoteEnv) (fuel : Nat) (store : LocalStore)
       (skills1 skills2 : List GitHubDiscoveredSkill) (i : Nat),
      skills1[i]? = skills2[i]? →
      (installSelectedGitHubSkills env fuel store skills1).results[i]? =
        (installSelectedGitHubSkills env fuel store skills2).results[i]?) ∧
    installSelectedGitHubSkills
      ⟨fun p =>
          if p = "c/s1" then .ok [⟨"SKILL.md", "c/s1/SKILL.md", "h1", "u1", EntryKind.file⟩]
          else if p = "c/s2" then .ok [⟨"SKILL.md", "c/s2/SKILL.md", "h2", "u2",
                                        EntryKind.file⟩]
          else if p = "c/s3" then .ok [⟨"SKILL.md", "c/s3/SKILL.md", "h3", "u3",
                                        EntryKind.file⟩]
          else if p = "c/s4" then .ok [⟨"SKILL.md", "c/s4/SKILL.md", "h4", "u4",
                                        EntryKind.file⟩]
          else if p = "c/s5" then .ok [⟨"SKILL.md", "c/s5/SKILL.md", "h5", "u5",
                                        EntryKind.file⟩]
          else .error "404",
        fun u =>
          if u = "u1" then .ok "---\nname: s1\n---\n"
          else if u = "u2" then .ok "---\nname: s2\n---\n"
          else if u = "u3" then .ok "---\nname: s3\n---\n"
          else if u = "u4" then .ok "---\nname: s4\n---\n"
          else if u = "u5" then .error "network error"
          else .error "404",
        "t0"⟩ 5
      ⟨[("s4", [])]⟩
      [⟨"s1", "", "o", "r", "m", "c/s1", "w1", false⟩,
       ⟨"s2", "", "o", "r", "m", "c/s2", "w2", false⟩,
       ⟨"s3", "", "o", "r", "m", "c/s3", "w3", false⟩,
       ⟨"s4", "", "o", "r", "m", "c/s4", "w4", true⟩,
       ⟨"s5", "", "o", "r", "m", "c/s5", "w5", false⟩] =
    { results :=
        [⟨"s1", BulkStatus.installed, 1, none⟩,
         ⟨"s2", BulkStatus.installed, 1, none⟩,
         ⟨"s3", BulkStatus.installed, 1, none⟩,
         ⟨"s4", BulkStatus.skipped, 0, some "Skill already exists: s4"⟩,
         ⟨"s5", BulkStatus.failed, 0, some "network error"⟩] } := by
  refine ⟨?_, ?_, ?_, ?_, ?_, ?_, by decide⟩
  · intro env fuel store skills
    simp [installSelectedGitHubSkills]
  · intro env fuel store skills i skill h
    show (skills.map (installOneOutcome env fuel store))[i]? = _
    rw [List.getElem?_map, h]
    rfl
  · intro env fuel store skill r h
    unfold installOneOutcome
    simp only [h]
  · intro env fuel store skill msg h hpre
    unfold installOneOutcome
    simp only [h, hpre, Bool.false_eq_true, if_false]
  · intro env fuel store skill bundle hfetch hcont
    have hinst : (installGitHubSkillTarget env fuel store (targetOfDiscovered skill)).2 =
        .error (cat "Skill already exists: " bundle.skillName) := by
      unfold installGitHubSkillTarget
      simp only [hfetch]
      rw [if_pos hcont]
    unfold installOneOutcome
    simp only [hinst, skillExists_startsWith, if_true]
  · intro env fuel store skills1 skills2 i h
    show (skills1.map (installOneOutcome env fuel store))[i]? =
      (skills2.map (installOneOutcome env fuel store))[i]?
    rw [List.getElem?_map, List.getElem?_map, h]

/-- Witness for C2: the per-unit result-count conjunct applied to the
five-unit scenario, and the name-collision conjunct applied to the colliding
unit. -/
theorem C2_witness :
    (installSelectedGitHubSkills
      ⟨fun p =>
          if p = "c/s4" then .ok [⟨"SKILL.md", "c/s4/SKILL.md", "h4", "u4", EntryKind.file⟩]
          else .error "404",
        fun u => if u = "u4" then .ok "---\nname: s4\n---\n" else .error "404",
        "t0"⟩ 5
      ⟨[("s4", [])]⟩
      [⟨"s4", "", "o", "r", "m", "c/s4", "w4", true⟩]).results.length = 1 ∧
    installOneOutcome
      ⟨fun p =>
          if p = "c/s4" then .ok [⟨"SKILL.md", "c/s4/SKILL.md", "h4", "u4", EntryKind.file⟩]
          else .error "404",
        fun u => if u = "u4" then .ok "---\nname: s4\n---\n" else .error "404",
        "t0"⟩ 5
      ⟨[("s4", [])]⟩
      ⟨"s4", "", "o", "r", "m", "c/s4", "w4", true⟩ =
      { skillName := "s4", status := BulkStatus.skipped, fileCount := 0,
        message := some (cat "Skill already exists: " "s4") } :=
  ⟨C2_batch_install_spec.1
      ⟨fun p =>
          if p = "c/s4" then .ok [⟨"SKILL.md", "c/s4/SKILL.md", "h4", "u4", EntryKind.file⟩]
          else .error "404",
        fun u => if u = "u4" then .ok "---\nname: s4\n---\n" else .error "404",
        "t0"⟩ 5
      ⟨[("s4", [])]⟩
      [⟨"s4", "", "o", "r", "m", "c/s4", "w4", true⟩],
   C2_batch_install_spec.2.2.2.2.1
      ⟨fun p =>
          if p = "c/s4" then .ok [⟨"SKILL.md", "c/s4/SKILL.md", "h4", "u4", EntryKind.file⟩]
          else .error "404",
        fun u => if u = "u4" then .ok "---\nname: s4\n---\n" else .error "404",
        "t0"⟩ 5
      ⟨[("s4", [])]⟩
      ⟨"s4", "", "o", "r", "m", "c/s4", "w4", true⟩
      ⟨"s4", [⟨"c/s4/SKILL.md", "h4", utf8Bytes "---\nname: s4\n---\n"⟩]⟩
      (by decide) (by decide)⟩

/-! ## Claim C6: local drift detection -/

theorem lookupList_eq_none {α : Type} (l : List (String × α)) (k : String) :
    lookupList l k = none ↔ k ∉ l.map Prod.fst := by
  simp only [lookupList, Option.map_eq_none', List.find?_eq_none, beq_iff_eq, List.mem_map]
  constructor
  · rintro h ⟨e, he, rfl⟩
    exact h e he rfl
  · rintro h e he rfl
    exact h ⟨e, he, rfl⟩

theorem lookupList_eq_some {α : Type} (l : List (String × α)) (k : String) (v : α) :
    lookupList l k = some v → (k, v) ∈ l := by
  intro h
  simp only [lookupList, Option.map_eq_some'] at h
  obtain ⟨e, hfind, rfl⟩ := h
  have he := List.mem_of_find?_eq_some hfind
  have hk : e.1 = k := by simpa using List.find?_some hfind
  rw [show (k, e.2) = e from by rw [← hk]]
  exact he

theorem lookupList_some_of_mem {α : Type} (l : List (String × α))
    (hnd : (l.map Prod.fst).Nodup) (k : String) (v : α) (hmem : (k, v) ∈ l) :
    lookupList l k = some v := by
  cases hg : lookupList l k with
  | none =>
    exact absurd (List.mem_map.mpr ⟨(k, v), hmem, rfl⟩) ((lookupList_eq_none l k).mp hg)
  | some v' =>
    rw [keys_nodup_unique l hnd k v' v (lookupList_eq_some l k v' hg) hmem]

theorem readUserSkillFileBytes_ok_iff (store : LocalStore) (skillName p : String)
    (dir : SkillDir) (b : List Nat)
    (hname : validateSkillName skillName = none)
    (hdir : lookupList store.skills skillName = some dir)
    (hnd : (dir.map Prod.fst).Nodup)
    (hjoin : joinSegments (pathSegments p) = p)
    (hne : pathSegments p ≠ []) :
    readUserSkillFileBytes store skillName p = .ok b ↔ (p, FileContent.bytesF b) ∈ dir := by
  unfold readUserSkillFileBytes
  cases hparts : pathSegments p with
  | nil => exact absurd hparts hne
  | cons a l =>
    simp only [hname, hdir, hparts]
    rw [hparts] at hjoin
    rw [hjoin]
    constructor
    · intro h
      cases hl : lookupList dir p with
      | none => simp only [hl] at h; cases h
      | some c =>
        simp only [hl] at h
        cases c with
        | bytesF b' =>
          cases h
          exact lookupList_eq_some dir p _ hl
        | metaF m => cases h
    · intro hmem
      rw [lookupList_some_of_mem dir hnd p _ hmem]

theorem detectLoop_spec (store : LocalStore) (skillName : String) (localSet : List String) :
    ∀ files : List GitHubSkillSourceFile,
    (∀ f ∈ files, localSet.contains f.path = true →
      ∃ b, readUserSkillFileBytes store skillName f.path = .ok b) →
    ∃ m mi, detectLoop store skillName localSet files = .ok (m, mi) ∧
      (∀ p, p ∈ mi ↔ ∃ f ∈ files, f.path = p ∧ localSet.contains f.path = false) ∧
      (∀ p, p ∈ m ↔ ∃ f ∈ files, f.path = p ∧ localSet.contains f.path = true ∧
        ∃ b, readUserSkillFileBytes store skillName f.path = .ok b ∧
          computeGitBlobSha b ≠ f.sha) := by
  intro files
  induction files with
  | nil =>
    intro _
    exact ⟨[], [], rfl, by simp, by simp⟩
  | cons f rest ih =>
    intro hread
    obtain ⟨m, mi, hloop, hmi, hm⟩ :=
      ih (fun g hg => hread g (List.mem_cons_of_mem f hg))
    by_cases hc : localSet.contains f.path = true
    · obtain ⟨b, hb⟩ := hread f (List.mem_cons_self f rest) hc
      by_cases hsha : computeGitBlobSha b ≠ f.sha
      · refine ⟨f.path :: m, mi, ?_, ?_, ?_⟩
        · simp only [detectLoop, hc, if_true, hb, bind, Except.bind, hloop, pure, Except.pure]
          rw [if_pos hsha]
        · intro p
          rw [hmi]
          constructor
          · rintro ⟨g, hg, hp, hcf⟩
            exact ⟨g, List.mem_cons_of_mem f hg, hp, hcf⟩
          · rintro ⟨g, hgm, hp, hcf⟩
            rcases List.mem_cons.mp hgm with rfl | hg
            · rw [hc] at hcf; cases hcf
            · exact ⟨g, hg, hp, hcf⟩
        · intro p
          simp only [List.mem_cons, hm]
          constructor
          · rintro (rfl | ⟨g, hg, hp, hcf, hbx⟩)
            · exact ⟨f, Or.inl rfl, rfl, hc, b, hb, hsha⟩
            · exact ⟨g, Or.inr hg, hp, hcf, hbx⟩
          · rintro ⟨g, hgm, hp, hcf, hbx⟩
            rcases hgm with rfl | hg
            · exact Or.inl hp.symm
            · exact Or.inr ⟨g, hg, hp, hcf, hbx⟩
      · refine ⟨m, mi, ?_, ?_, ?_⟩
        · simp only [detectLoop, hc, if_true, hb, bind, Except.bind, hloop, pure, Except.pure]
          rw [if_neg hsha]
        · intro p
          rw [hmi]
          constructor
          · rintro ⟨g, hg, hp, hcf⟩
            exact ⟨g, List.mem_cons_of_mem f hg, hp, hcf⟩
          · rintro ⟨g, hgm, hp, hcf⟩
            rcases List.mem_cons.mp hgm with rfl | hg
            · rw [hc] at hcf; cases hcf
            · exact ⟨g, hg, hp, hcf⟩
        · intro p
          rw [hm]
          constructor
          · rintro ⟨g, hg, hp, hcf, hbx⟩
            exact ⟨g, List.mem_cons_of_mem f hg, hp, hcf, hbx⟩
          · rintro ⟨g, hgm, hp, hcf, b', hb', hsha'⟩
            rcases List.mem_cons.mp hgm with rfl | hg
            · rw [hb] at hb'
              cases hb'
              exact absurd hsha' hsha
            · exact ⟨g, hg, hp, hcf, b', hb', hsha'⟩
    · have hcf : localSet.contains f.path = false := by
        cases hx : localSet.contains f.path with
        | false => rfl
        | true => exact absurd hx hc
      refine ⟨m, f.path :: mi, ?_, ?_, ?_⟩
      · simp only [detectLoop, hcf, Bool.false_eq_true, if_false, bind, Except.bind, hloop,
          pure, Except.pure]
      · intro p
        simp only [List.mem_cons, hmi]
        constructor
        · rintro (rfl | ⟨g, hg, hp, hcg⟩)
          · exact ⟨f, Or.inl rfl, rfl, hcf⟩
          · exact ⟨g, Or.inr hg, hp, hcg⟩
        · rintro ⟨g, hgm, hp, hcg⟩
          rcases hgm with rfl | hg
          · exact Or.inl hp.symm
          · exact Or.inr ⟨g, hg, hp, hcg⟩
      · intro p
        rw [hm]
        constructor
        · rintro ⟨g, hg, hp, hcg, hbx⟩
          exact ⟨g, List.mem_cons_of_mem f hg, hp, hcg, hbx⟩
        · rintro ⟨g, hgm, hp, hcg, hbx⟩
          rcases List.mem_cons.mp hgm with rfl | hg
          · rw [hcf] at hcg; cases hcg
          · exact ⟨g, hg, hp, hcg, hbx⟩

/-- C6.  For every unit with stored metadata, `previewLocalChanges` (here
`detectLocalGitHubSkillChanges`, wrapped by `previewGitHubSkillForceUpdate`)
classifies: a recorded file absent from the local namespace as `missing`; a
present one whose recomputed blob hash differs from the recorded hash as
`modified`; a local file not in the metadata — the reserved sidecar name
excluded — as `untracked`.  Hypotheses: the skill directory exists with
duplicate-free well-formed keys, its non-sidecar entries hold raw bytes, and
the metadata does not record the reserved sidecar name.  The final conjunct is
the claim's example: stored `{a: h1}` with local `a` rehashing to `h1` (the
empty blob) plus an extra local file `z` gives
`untracked: [z], modified: [], missing: []`. -/
theorem C6_local_changes_spec :
    (∀ (store : LocalStore) (skillName : String) (metadata : GitHubSkillSourceMetadata)
       (dir : SkillDir),
      validateSkillName skillName = none →
      lookupList store.skills skillName = some dir →
      (dir.map Prod.fst).Nodup →
      (∀ k c, (k, c) ∈ dir → k ≠ sourceMetadataFilename → ∃ b, c = FileContent.bytesF b) →
      (∀ k ∈ dir.map Prod.fst, joinSegments (pathSegments k) = k ∧ pathSegments k ≠ []) →
      sourceMetadataFilename ∉ metadata.files.map (fun f => f.path) →
      ∃ ch, detectLocalGitHubSkillChanges store skillName metadata = .ok ch ∧
        (∀ p, p ∈ ch.missing ↔
          p ∈ metadata.files.map (fun f => f.path) ∧ p ∉ dir.map Prod.fst) ∧
        (∀ p, p ∈ ch.modified ↔
          ∃ f ∈ metadata.files, f.path = p ∧
            ∃ b, (p, FileContent.bytesF b) ∈ dir ∧ computeGitBlobSha b ≠ f.sha) ∧
        (∀ p, p ∈ ch.untracked ↔
          (p ∈ dir.map Prod.fst ∧ p ≠ sourceMetadataFilename) ∧
          p ∉ metadata.files.map (fun f => f.path))) ∧
    previewGitHubSkillForceUpdate
      ⟨[("sk", [("a", FileContent.bytesF []), ("z", FileContent.bytesF [1, 2]),
        (sourceMetadataFilename, FileContent.metaF
          ⟨"o", "r", "m", "p", "u", "t",
            [⟨"a", "e69de29bb2d1d6434b8b29ae775ad8c2e48c5391"⟩]⟩)])]⟩
      "sk" =
    .ok { skillName := "sk",
          localChanges := { modified := [], missing := [], untracked := ["z"] },
          hasLocalChanges := true } := by
  constructor
  · intro store skillName metadata dir hname hdir hnd hbytes hwf hside
    have hlocmem : ∀ p, p ∈ sortStrings ((dir.map Prod.fst).filter
        (fun p => p ≠ sourceMetadataFilename)) ↔
        (p ∈ dir.map Prod.fst ∧ p ≠ sourceMetadataFilename) := by
      intro p
      rw [mem_sortStrings, List.mem_filter]
      simp
    have hcontains_false : ∀ (l : List String) (q : String),
        l.contains q = false ↔ q ∉ l := by
      intro l q
      rw [← Bool.not_eq_true]
      exact not_congr List.elem_iff
    have hread : ∀ f ∈ metadata.files,
        (sortStrings ((dir.map Prod.fst).filter
          (fun p => p ≠ sourceMetadataFilename))).contains f.path = true →
        ∃ b, readUserSkillFileBytes store skillName f.path = .ok b := by
      intro f hf hc
      have hmemloc := (hlocmem f.path).mp (List.elem_iff.mp hc)
      obtain ⟨e, he, hfst⟩ := List.mem_map.mp hmemloc.1
      have hpair : (f.path, e.2) ∈ dir := by
        rw [show (f.path, e.2) = e from by rw [← hfst]]
        exact he
      obtain ⟨b, hb⟩ := hbytes f.path e.2 hpair hmemloc.2
      refine ⟨b, (readUserSkillFileBytes_ok_iff store skillName f.path dir b hname hdir hnd
        (hwf f.path hmemloc.1).1 (hwf f.path hmemloc.1).2).mpr ?_⟩
      rw [← hb]
      exact hpair
    obtain ⟨m, mi, hloop, hmi, hm⟩ := detectLoop_spec store skillName
      (sortStrings ((dir.map Prod.fst).filter (fun p => p ≠ sourceMetadataFilename)))
      metadata.files hread
    refine ⟨⟨m, mi,
      (sortStrings ((dir.map Prod.fst).filter (fun p => p ≠ sourceMetadataFilename))).filter
        (fun p => !((metadata.files.map (fun f => f.path)).contains p))⟩, ?_, ?_, ?_, ?_⟩
    · unfold detectLocalGitHubSkillChanges
      simp only [getUserSkillDir, hname, hdir, bind, Except.bind, listSkillFiles, hloop,
        pure, Except.pure]
    · intro p
      rw [show (⟨m, mi, _⟩ : GitHubSkillLocalChanges).missing = mi from rfl, hmi]
      constructor
      · rintro ⟨f, hf, rfl, hcf⟩
        refine ⟨List.mem_map.mpr ⟨f, hf, rfl⟩, ?_⟩
        intro hk
        have : f.path ∈ sortStrings ((dir.map Prod.fst).filter
            (fun p => p ≠ sourceMetadataFilename)) :=
          (hlocmem f.path).mpr ⟨hk, fun hcontra =>
            hside (hcontra ▸ List.mem_map.mpr ⟨f, hf, rfl⟩)⟩
        have hct : (sortStrings ((dir.map Prod.fst).filter
            (fun p => p ≠ sourceMetadataFilename))).contains f.path = true :=
          List.elem_iff.mpr this
        rw [hct] at hcf
        cases hcf
      · rintro ⟨hpm, hpk⟩
        obtain ⟨f, hf, rfl⟩ := List.mem_map.mp hpm
        refine ⟨f, hf, rfl, (hcontains_false _ _).mpr ?_⟩
        intro hmem
        exact hpk ((hlocmem f.path).mp hmem).1
    · intro p
      rw [show (⟨m, mi, _⟩ : GitHubSkillLocalChanges).modified = m from rfl, hm]
      constructor
      · rintro ⟨f, hf, rfl, hcf, b, hb, hsha⟩
        have hmemloc := (hlocmem f.path).mp (List.elem_iff.mp hcf)
        exact ⟨f, hf, rfl, b,
          (readUserSkillFileBytes_ok_iff store skillName f.path dir b hname hdir hnd
            (hwf f.path hmemloc.1).1 (hwf f.path hmemloc.1).2).mp hb, hsha⟩
      · rintro ⟨f, hf, rfl, b, hb, hsha⟩
        have hk : f.path ∈ dir.map Prod.fst := List.mem_map.mpr ⟨(f.path, _), hb, rfl⟩
        have hcf : (sortStrings ((dir.map Prod.fst).filter
            (fun p => p ≠ sourceMetadataFilename))).contains f.path = true :=
          List.elem_iff.mpr ((hlocmem f.path).mpr ⟨hk, fun hcontra =>
            hside (hcontra ▸ List.mem_map.mpr ⟨f, hf, rfl⟩)⟩)
        exact ⟨f, hf, rfl, hcf, b,
          (readUserSkillFileBytes_ok_iff store skillName f.path dir b hname hdir hnd
            (hwf f.path hk).1 (hwf f.path hk).2).mpr hb, hsha⟩
    · intro p
      rw [show (⟨m, mi, _⟩ : GitHubSkillLocalChanges).untracked = _ from rfl]
      rw [List.mem_filter]
      constructor
      · rintro ⟨hloc, hnc⟩
        refine ⟨(hlocmem p).mp hloc, ?_⟩
        have : (metadata.files.map (fun f => f.path)).contains p = false := by
          cases hx : (metadata.files.map (fun f => f.path)).contains p with
          | false => rfl
          | true => rw [hx] at hnc; cases hnc
        exact (hcontains_false _ _).mp this
      · rintro ⟨hloc, hnm⟩
        refine ⟨(hlocmem p).mpr hloc, ?_⟩
        rw [(hcontains_false _ _).mpr hnm]
        rfl
  · decide

/-- Witness for C6: the detection theorem applied at the example store (local
`a` holding the empty blob whose hash matches the recorded one, plus an
untracked `z` and the sidecar). -/
theorem C6_witness :
    ∃ ch, detectLocalGitHubSkillChanges
      ⟨[("sk", [("a", FileContent.bytesF []), ("z", FileContent.bytesF [1, 2]),
        (sourceMetadataFilename, FileContent.metaF
          ⟨"o", "r", "m", "p", "u", "t",
            [⟨"a", "e69de29bb2d1d6434b8b29ae775ad8c2e48c5391"⟩]⟩)])]⟩
      "sk"
      ⟨"o", "r", "m", "p", "u", "t",
        [⟨"a", "e69de29bb2d1d6434b8b29ae775ad8c2e48c5391"⟩]⟩ = .ok ch ∧
      (∀ p, p ∈ ch.missing ↔
        p ∈ ([⟨"a", "e69de29bb2d1d6434b8b29ae775ad8c2e48c5391"⟩] :
            List GitHubSkillSourceFile).map (fun f => f.path) ∧
        p ∉ ([("a", FileContent.bytesF []), ("z", FileContent.bytesF [1, 2]),
          (sourceMetadataFilename, FileContent.metaF
            ⟨"o", "r", "m", "p", "u", "t",
              [⟨"a", "e69de29bb2d1d6434b8b29ae775ad8c2e48c5391"⟩]⟩)] :
            SkillDir).map Prod.fst) ∧
      (∀ p, p ∈ ch.modified ↔
        ∃ f ∈ ([⟨"a", "e69de29bb2d1d6434b8b29ae775ad8c2e48c5391"⟩] :
            List GitHubSkillSourceFile), f.path = p ∧
          ∃ b, (p, FileContent.bytesF b) ∈
              ([("a", FileContent.bytesF []), ("z", FileContent.bytesF [1, 2]),
                (sourceMetadataFilename, FileContent.metaF
                  ⟨"o", "r", "m", "p", "u", "t",
                    [⟨"a", "e69de29bb2d1d6434b8b29ae775ad8c2e48c5391"⟩]⟩)] : SkillDir) ∧
            computeGitBlobSha b ≠ f.sha) ∧
      (∀ p, p ∈ ch.untracked ↔
        (p ∈ ([("a", FileContent.bytesF []), ("z", FileContent.bytesF [1, 2]),
          (sourceMetadataFilename, FileContent.metaF
            ⟨"o", "r", "m", "p", "u", "t",
              [⟨"a", "e69de29bb2d1d6434b8b29ae775ad8c2e48c5391"⟩]⟩)] :
            SkillDir).map Prod.fst ∧ p ≠ sourceMetadataFilename) ∧
        p ∉ ([⟨"a", "e69de29bb2d1d6434b8b29ae775ad8c2e48c5391"⟩] :
            List GitHubSkillSourceFile).map (fun f => f.path)) :=
  C6_local_changes_spec.1
    ⟨[("sk", [("a", FileContent.bytesF []), ("z", FileContent.bytesF [1, 2]),
      (sourceMetadataFilename, FileContent.metaF
        ⟨"o", "r", "m", "p", "u", "t",
          [⟨"a", "e69de29bb2d1d6434b8b29ae775ad8c2e48c5391"⟩]⟩)])]⟩
    "sk"
    ⟨"o", "r", "m", "p", "u", "t",
      [⟨"a", "e69de29bb2d1d6434b8b29ae775ad8c2e48c5391"⟩]⟩
    [("a", FileContent.bytesF []), ("z", FileContent.bytesF [1, 2]),
      (sourceMetadataFilename, FileContent.metaF
        ⟨"o", "r", "m", "p", "u", "t",
          [⟨"a", "e69de29bb2d1d6434b8b29ae775ad8c2e48c5391"⟩]⟩)]
    (by decide) (by decide) (by decide)
    (by
      intro k c hmem hne
      simp only [List.mem_cons, List.not_mem_nil, or_false, Prod.mk.injEq] at hmem
      rcases hmem with ⟨hk, hc⟩ | ⟨hk, hc⟩ | ⟨hk, hc⟩
      · exact ⟨[], hc⟩
      · exact ⟨[1, 2], hc⟩
      · exact absurd hk hne)
    (by decide) (by decide)

/-! ## Claim C4: the install round-trip -/

theorem mem_upsert_keys {α : Type} : ∀ (l : List (String × α)) (k : String) (v : α)
    (p : String), p ∈ (upsert l k v).map Prod.fst ↔ p = k ∨ p ∈ l.map Prod.fst := by
  intro l k v
  induction l with
  | nil => intro p; simp [upsert]
  | cons e rest ih =>
    intro p
    obtain ⟨k0, v0⟩ := e
    simp only [upsert]
    by_cases hk : k0 = k
    · rw [if_pos hk]
      subst hk
      simp only [List.map_cons, List.mem_cons]
      tauto
    · rw [if_neg hk]
      simp only [List.map_cons, List.mem_cons, ih p]
      tauto

theorem lookupList_upsert_self {α : Type} : ∀ (l : List (String × α)) (k : String) (v : α),
    lookupList (upsert l k v) k = some v := by
  intro l k v
  induction l with
  | nil =>
    show lookupList [(k, v)] k = some v
    unfold lookupList
    rw [List.find?_cons_of_pos _ (by simp)]
    rfl
  | cons e rest ih =>
    obtain ⟨k0, v0⟩ := e
    simp only [upsert]
    by_cases hk : k0 = k
    · rw [if_pos hk]
      unfold lookupList
      rw [List.find?_cons_of_pos _ (by simp)]
      rfl
    · rw [if_neg hk]
      unfold lookupList
      rw [List.find?_cons_of_neg _ (by simpa using hk)]
      exact ih

/-- A write loop over files whose relative paths all resolve succeeds, and the
resulting directory's key set is the initial key set plus the normalized
relative paths. -/
theorem writeGitHubSkillBundle_ok (targetPath : String) :
    ∀ (files : List RemoteFile) (dir : SkillDir),
    (∀ f ∈ files, ∃ rel, toRelativeSkillPath targetPath f.path = .ok rel ∧
      pathSegments rel ≠ []) →
    ∃ dir2, writeGitHubSkillBundle dir targetPath files = (dir2, none) ∧
      ∀ p, p ∈ dir2.map Prod.fst ↔
        (p ∈ dir.map Prod.fst ∨ ∃ f ∈ files, ∃ rel,
          toRelativeSkillPath targetPath f.path = .ok rel ∧
          joinSegments (pathSegments rel) = p) := by
  intro files
  induction files with
  | nil =>
    intro dir _
    exact ⟨dir, rfl, by simp⟩
  | cons f rest ih =>
    intro dir h
    obtain ⟨rel, hok, hne⟩ := h f (List.mem_cons_self f rest)
    obtain ⟨dir2, hw, hkeys⟩ :=
      ih (upsert dir (joinSegments (pathSegments rel)) (.bytesF f.bytes))
        (fun g hg => h g (List.mem_cons_of_mem f hg))
    refine ⟨dir2, ?_, ?_⟩
    · show writeGitHubSkillBundle dir targetPath (f :: rest) = (dir2, none)
      have hwbytes : writeSkillFileBytes dir rel f.bytes =
          .ok (upsert dir (joinSegments (pathSegments rel)) (.bytesF f.bytes)) := by
        unfold writeSkillFileBytes
        cases hseg : pathSegments rel with
        | nil => exact absurd hseg hne
        | cons a as => rfl
      unfold writeGitHubSkillBundle
      simp only [hok, hwbytes]
      exact hw
    · intro p
      rw [hkeys p, mem_upsert_keys]
      constructor
      · rintro ((rfl | hdir) | ⟨g, hg, rel', hok', hjp⟩)
        · exact Or.inr ⟨f, List.mem_cons_self f rest, rel, hok, rfl⟩
        · exact Or.inl hdir
        · exact Or.inr ⟨g, List.mem_cons_of_mem f hg, rel', hok', hjp⟩
      · rintro (hdir | ⟨g, hg, rel', hok', hjp⟩)
        · exact Or.inl (Or.inr hdir)
        · rcases List.mem_cons.mp hg with rfl | hg'
          · rw [hok] at hok'
            injection hok' with he
            rw [← he] at hjp
            exact Or.inl (Or.inl hjp.symm)
          · exact Or.inr ⟨g, hg', rel', hok', hjp⟩

/-- The metadata-building `mapM` over files whose relative paths all resolve
succeeds, and the produced record paths are exactly the resolved relative
paths. -/
theorem relMapM_ok (targetPath : String) :
    ∀ files : List RemoteFile,
    (∀ f ∈ files, ∃ rel, toRelativeSkillPath targetPath f.path = .ok rel) →
    ∃ mf, files.mapM (fun f =>
        (toRelativeSkillPath targetPath f.path).map
          (fun rel => (⟨rel, f.sha⟩ : GitHubSkillSourceFile))) = .ok mf ∧
      ∀ p, p ∈ mf.map (fun g => g.path) ↔
        ∃ f ∈ files, toRelativeSkillPath targetPath f.path = .ok p := by
  intro files
  induction files with
  | nil => intro _; exact ⟨[], rfl, by simp⟩
  | cons f rest ih =>
    intro h
    obtain ⟨rel, hok⟩ := h f (List.mem_cons_self f rest)
    obtain ⟨mfr, hmr, hpaths⟩ := ih (fun g hg => h g (List.mem_cons_of_mem f hg))
    refine ⟨⟨rel, f.sha⟩ :: mfr, ?_, ?_⟩
    · rw [List.mapM_cons, hok]
      simp only [Except.map, bind, Except.bind, pure, Except.pure] at hmr ⊢
      simp only [hmr]
    · intro p
      simp only [List.map_cons, List.mem_cons, hpaths p]
      constructor
      · rintro (rfl | ⟨g, hg, hokg⟩)
        · exact ⟨f, Or.inl rfl, hok⟩
        · exact ⟨g, Or.inr hg, hokg⟩
      · rintro ⟨g, hg, hokg⟩
        rcases hg with rfl | hg'
        · left
          rw [hok] at hokg
          injection hokg with he
          exact he.symm
        · right
          exact ⟨g, hg', hokg⟩

/-- Counterexample to C4 as stated.  A remote skill directory may itself
contain a file named exactly like the reserved sidecar
(`.openbrowserclaw-source.json`); the fetch does not filter it out, so a
successful install records it in the persisted metadata file list — and read
back, the list contains the reserved name — while its written copy is then
overwritten by the sidecar record itself, so the set of written paths with the
sidecar excluded does not contain it.  The claimed set equality therefore
fails for this reachable install. -/
theorem C4_counterexample :
    installGitHubSkillTarget
      ⟨fun p =>
          if p = "c/sk" then .ok
            [⟨"SKILL.md", "c/sk/SKILL.md", "h1", "u1", EntryKind.file⟩,
             ⟨".openbrowserclaw-source.json", "c/sk/.openbrowserclaw-source.json", "h2",
               "u2", EntryKind.file⟩]
          else .error "404",
        fun u =>
          if u = "u1" then .ok "---\nname: sk\n---\n"
          else if u = "u2" then .ok "{}"
          else .error "404",
        "t0"⟩ 3 ⟨[]⟩ ⟨"o", "r", "m", "c/sk", "w"⟩ =
      (⟨[("sk",
          [(sourceMetadataFilename, FileContent.metaF
              ⟨"o", "r", "m", "c/sk", "w", "t0",
                [⟨".openbrowserclaw-source.json", "h2"⟩, ⟨"SKILL.md", "h1"⟩]⟩),
           ("SKILL.md", FileContent.bytesF (utf8Bytes "---\nname: sk\n---\n"))])]⟩,
        .ok ⟨"sk", 2⟩) ∧
    readGitHubSkillSourceMetadata
      ⟨[("sk",
          [(sourceMetadataFilename, FileContent.metaF
              ⟨"o", "r", "m", "c/sk", "w", "t0",
                [⟨".openbrowserclaw-source.json", "h2"⟩, ⟨"SKILL.md", "h1"⟩]⟩),
           ("SKILL.md", FileContent.bytesF (utf8Bytes "---\nname: sk\n---\n"))])]⟩ "sk" =
      some ⟨"o", "r", "m", "c/sk", "w", "t0",
        [⟨".openbrowserclaw-source.json", "h2"⟩, ⟨"SKILL.md", "h1"⟩]⟩ ∧
    sourceMetadataFilename ∈
      ([⟨".openbrowserclaw-source.json", "h2"⟩, ⟨"SKILL.md", "h1"⟩] :
        List GitHubSkillSourceFile).map (fun f => f.path) ∧
    sourceMetadataFilename ∉
      (([(sourceMetadataFilename, FileContent.metaF
            ⟨"o", "r", "m", "c/sk", "w", "t0",
              [⟨".openbrowserclaw-source.json", "h2"⟩, ⟨"SKILL.md", "h1"⟩]⟩),
         ("SKILL.md", FileContent.bytesF (utf8Bytes "---\nname: sk\n---\n"))] :
          SkillDir).map Prod.fst).filter (fun q => q ≠ sourceMetadataFilename) := by
  decide

/-- C4 (amended).  For every successful install whose fetched files' computed
relative paths are slash-normalized (splitting on slashes and re-joining is
the identity, with at least one segment) and differ from the reserved sidecar
filename, reading back the persisted metadata yields a file list whose set of
paths equals the set of relative paths of the files written to the local store
during that install, with the reserved sidecar excluded.  (A fetched file
named exactly like the sidecar would be recorded in the list while its written
copy is overwritten by the sidecar record, breaking the equality.) -/
theorem C4_round_trip_spec :
    ∀ (env : RemoteEnv) (fuel : Nat) (store : LocalStore) (target : GitHubRepoTarget)
      (bundle : GitHubSkillBundle) (store' : LocalStore) (r : GitHubInstallResult),
    fetchGitHubSkillBundle env fuel target = .ok bundle →
    (∀ f ∈ bundle.files, ∃ rel, toRelativeSkillPath target.path f.path = .ok rel ∧
      joinSegments (pathSegments rel) = rel ∧ pathSegments rel ≠ [] ∧
      rel ≠ sourceMetadataFilename) →
    installGitHubSkillTarget env fuel store target = (store', .ok r) →
    ∃ dir md,
      lookupList store'.skills r.skillName = some dir ∧
      readGitHubSkillSourceMetadata store' r.skillName = some md ∧
      ∀ p, p ∈ md.files.map (fun f => f.path) ↔
        (p ∈ dir.map Prod.fst ∧ p ≠ sourceMetadataFilename) := by
  intro env fuel store target bundle store' r hfetch hrels hinst
  unfold installGitHubSkillTarget at hinst
  simp only [hfetch] at hinst
  by_cases hcont : (listUserSkillNames store).contains bundle.skillName = true
  · rw [if_pos hcont] at hinst
    injection hinst with h1 h2
    cases h2
  · rw [if_neg hcont] at hinst
    have hlook : lookupList store.skills bundle.skillName = none := by
      rw [lookupList_eq_none]
      intro hmem
      exact hcont (List.elem_iff.mpr (mem_sortStrings.mpr hmem))
    cases hname : validateSkillName bundle.skillName with
    | some e =>
      simp only [getUserSkillDir, hname] at hinst
      injection hinst with h1 h2
      cases h2
    | none =>
      simp only [getUserSkillDir, hname, hlook, reduceIte] at hinst
      obtain ⟨dir2, hw, hkeys⟩ := writeGitHubSkillBundle_ok target.path bundle.files []
        (fun f hf => by obtain ⟨rel, hok, _, hne, _⟩ := hrels f hf; exact ⟨rel, hok, hne⟩)
      simp only [hw] at hinst
      obtain ⟨mf, hmf, hmfpaths⟩ := relMapM_ok target.path bundle.files
        (fun f hf => by obtain ⟨rel, hok, _⟩ := hrels f hf; exact ⟨rel, hok⟩)
      simp only [hmf] at hinst
      injection hinst with h1 h2
      injection h2 with h2
      subst h1
      subst h2
      rw [show ({ skillName := bundle.skillName, fileCount := bundle.files.length } :
          GitHubInstallResult).skillName = bundle.skillName from rfl]
      refine ⟨upsert dir2 sourceMetadataFilename
          (.metaF ⟨target.owner, target.repo, target.ref, target.path, target.originalUrl,
            env.now, mf⟩),
        ⟨target.owner, target.repo, target.ref, target.path, target.originalUrl, env.now,
          sortSourceFiles mf⟩, ?_, ?_, ?_⟩
      · simp only [setSkillDir, writeSkillMetadataFile]
        exact lookupList_upsert_self _ _ _
      · simp only [readGitHubSkillSourceMetadata, hname, setSkillDir, writeSkillMetadataFile,
          lookupList_upsert_self]
      · intro p
        have hsortmem : p ∈ (sortSourceFiles mf).map (fun f => f.path) ↔
            p ∈ mf.map (fun f => f.path) := by
          constructor
          · intro hp
            obtain ⟨g, hg, rfl⟩ := List.mem_map.mp hp
            exact List.mem_map.mpr ⟨g, mem_sortSourceFiles.mp hg, rfl⟩
          · intro hp
            obtain ⟨g, hg, rfl⟩ := List.mem_map.mp hp
            exact List.mem_map.mpr ⟨g, mem_sortSourceFiles.mpr hg, rfl⟩
        show p ∈ (sortSourceFiles mf).map (fun f => f.path) ↔ _
        rw [hsortmem, hmfpaths p, mem_upsert_keys, hkeys p]
        constructor
        · rintro ⟨f, hf, hok⟩
          obtain ⟨rel, hok', hjoin, hne0, hnsc⟩ := hrels f hf
          rw [hok'] at hok
          injection hok with he
          subst he
          exact ⟨Or.inr (Or.inr ⟨f, hf, rel, hok', hjoin⟩), hnsc⟩
        · rintro ⟨hmem, hne⟩
          rcases hmem with rfl | hmem2
          · exact absurd rfl hne
          rcases hmem2 with hnil | ⟨f, hf, rel, hok, hjp⟩
          · simp at hnil
          · obtain ⟨rel', hok', hjoin', hne0', hnsc'⟩ := hrels f hf
            rw [hok'] at hok
            injection hok with he
            have hpr : p = rel' := by rw [← hjp, ← he, hjoin']
            rw [hpr]
            exact ⟨f, hf, hok'⟩

/-- Witness for C4: the round-trip theorem applied at a clean two-file install
(`SKILL.md` and `notes.txt` under `c/sk`), whose hypotheses are discharged by
evaluation. -/
theorem C4_witness :
    ∃ dir md,
      lookupList
        (⟨[("sk",
            [("SKILL.md", FileContent.bytesF (utf8Bytes "---\nname: sk\n---\n")),
             ("notes.txt", FileContent.bytesF (utf8Bytes "hello")),
             (sourceMetadataFilename, FileContent.metaF
                ⟨"o", "r", "m", "c/sk", "w", "t0",
                  [⟨"SKILL.md", "h1"⟩, ⟨"notes.txt", "h3"⟩]⟩)])]⟩ : LocalStore).skills
        (⟨"sk", 2⟩ : GitHubInstallResult).skillName = some dir ∧
      readGitHubSkillSourceMetadata
        ⟨[("sk",
            [("SKILL.md", FileContent.bytesF (utf8Bytes "---\nname: sk\n---\n")),
             ("notes.txt", FileContent.bytesF (utf8Bytes "hello")),
             (sourceMetadataFilename, FileContent.metaF
                ⟨"o", "r", "m", "c/sk", "w", "t0",
                  [⟨"SKILL.md", "h1"⟩, ⟨"notes.txt", "h3"⟩]⟩)])]⟩
        (⟨"sk", 2⟩ : GitHubInstallResult).skillName = some md ∧
      ∀ p, p ∈ md.files.map (fun f => f.path) ↔
        (p ∈ dir.map Prod.fst ∧ p ≠ sourceMetadataFilename) :=
  C4_round_trip_spec
    ⟨fun p =>
        if p = "c/sk" then .ok
          [⟨"SKILL.md", "c/sk/SKILL.md", "h1", "u1", EntryKind.file⟩,
           ⟨"notes.txt", "c/sk/notes.txt", "h3", "u3", EntryKind.file⟩]
        else .error "404",
      fun u =>
        if u = "u1" then .ok "---\nname: sk\n---\n"
        else if u = "u3" then .ok "hello"
        else .error "404",
      "t0"⟩ 3 ⟨[]⟩ ⟨"o", "r", "m", "c/sk", "w"⟩
    ⟨"sk",
      [⟨"c/sk/SKILL.md", "h1", utf8Bytes "---\nname: sk\n---\n"⟩,
       ⟨"c/sk/notes.txt", "h3", utf8Bytes "hello"⟩]⟩
    ⟨[("sk",
        [("SKILL.md", FileContent.bytesF (utf8Bytes "---\nname: sk\n---\n")),
         ("notes.txt", FileContent.bytesF (utf8Bytes "hello")),
         (sourceMetadataFilename, FileContent.metaF
            ⟨"o", "r", "m", "c/sk", "w", "t0",
              [⟨"SKILL.md", "h1"⟩, ⟨"notes.txt", "h3"⟩]⟩)])]⟩
    ⟨"sk", 2⟩
    (by decide)
    (by
      intro f hf
      simp only [List.mem_cons, List.not_mem_nil, or_false] at hf
      rcases hf with rfl | rfl
      · exact ⟨"SKILL.md", by decide, by decide, by decide, by decide⟩
      · exact ⟨"notes.txt", by decide, by decide, by decide, by decide⟩)
    (by decide)

end OBC
